import Mathlib

/-!
# A verification model of `conda/install.py`

This file gives a shallow embedding, in Lean 4, of the package linking
engine of `conda/install.py`: the prefix rewriter (`binary_replace`,
`update_prefix`), distribution-name utilities (`name_dist`, `_dist2pair`),
the duplicate reaper (`duplicates_to_remove`), the lifecycle script runner
(`run_script`), the package cache index (`add_cached_package`,
`rm_fetched`) and the link/unlink engines, together with theorems about
their behaviour.

Byte strings are modelled as `List Nat` (NUL is `0`).  Stateful code is
modelled by explicit state passing; code paths that raise Python
exceptions are modelled with `Except`/`Option` results.  Recursions whose
Python originals walk a string by an arbitrary stride are given an
explicit fuel argument (always instantiated with the length of the input,
which is an upper bound for the number of steps), so that every
definition is executable by kernel reduction.
-/

deriving instance DecidableEq for Except

namespace CondaInstall

/-! ## Byte-level primitives: Python `bytes.count` and `bytes.replace`

`binary_replace` (install.py lines 323-339) uses `match.group().count(a)`
and `match.group().replace(a, b)`.  `bcountF`/`breplaceF` model the
builtin semantics for a nonempty pattern: scan left to right, count
(resp. replace) non-overlapping occurrences.  The fuel argument is an
upper bound on the number of scan steps; each step consumes at least one
byte, so `s.length` is always enough fuel. -/

def bcountF (a : List Nat) : Nat → List Nat → Nat
  | _, [] => 0
  | 0, _ :: _ => 0
  | fuel + 1, c :: s =>
    if a ≠ [] ∧ a.isPrefixOf (c :: s) then 1 + bcountF a fuel ((c :: s).drop a.length)
    else bcountF a fuel s

def bcount (a s : List Nat) : Nat := bcountF a s.length s

def breplaceF (a b : List Nat) : Nat → List Nat → List Nat
  | _, [] => []
  | 0, l => l
  | fuel + 1, c :: s =>
    if a ≠ [] ∧ a.isPrefixOf (c :: s) then b ++ breplaceF a b fuel ((c :: s).drop a.length)
    else c :: breplaceF a b fuel s

def breplace (a b s : List Nat) : List Nat := breplaceF a b s.length s

/-- Python `s.count(a)`: for the empty pattern, Python counts the
`len(s) + 1` gaps between characters. -/
def pyCount (s a : List Nat) : Nat :=
  if a = [] then s.length + 1 else bcount a s

/-- Python `s.replace(a, b)`: for the empty pattern, Python inserts `b`
into every gap of `s`. -/
def pyReplace (s a b : List Nat) : List Nat :=
  if a = [] then b ++ (s.map (fun c => c :: b)).flatten else breplace a b s

/-! ## `binary_replace` (install.py lines 323-339)

The pattern `re.escape(a) + b'([^\0]*?)\0'` matches, at a given position,
the placeholder `a` followed by the lazily shortest run of non-NUL bytes
and a terminating NUL; `re.sub` scans left to right and replaces
non-overlapping matches.  A match therefore exists at a position iff `a`
is a prefix of the remaining data and a NUL occurs somewhere after the
`a` part (the bytes before the first such NUL are automatically
non-NUL).  The callback raises `PaddingError` when the computed padding
is negative; this is modelled with `Except Unit`, `.error ()` standing
for the raised `PaddingError`. -/

def replaceRun (a b run : List Nat) : Except Unit (List Nat) :=
  let occurances := pyCount run a
  let padding : Int := ((a.length : Int) - (b.length : Int)) * (occurances : Int)
  if padding < 0 then .error ()
  else .ok (pyReplace run a b ++ List.replicate padding.toNat 0)

def subNulRunsF (a b : List Nat) : Nat → List Nat → Except Unit (List Nat)
  | _, [] => .ok []
  | 0, l => .ok l
  | fuel + 1, c :: s =>
    let rest := (c :: s).drop a.length
    if a.isPrefixOf (c :: s) ∧ rest.contains 0 then
      let mid := rest.takeWhile (fun x => x != 0)
      let after := (rest.dropWhile (fun x => x != 0)).drop 1
      match replaceRun a b (a ++ mid ++ [0]) with
      | .error e => .error e
      | .ok r =>
        match subNulRunsF a b fuel after with
        | .error e => .error e
        | .ok r2 => .ok (r ++ r2)
    else
      match subNulRunsF a b fuel s with
      | .error e => .error e
      | .ok r2 => .ok (c :: r2)

def binary_replace (data a b : List Nat) : Except Unit (List Nat) :=
  subNulRunsF a b data.length data

/-- Whether the regex `re.escape(a) + b'([^\0]*?)\0'` matches anywhere in
`data`: some occurrence of `a` is followed, further right, by a NUL. -/
def hasNulRunF (a : List Nat) : Nat → List Nat → Bool
  | _, [] => false
  | 0, _ :: _ => false
  | fuel + 1, c :: s =>
    (a.isPrefixOf (c :: s) && ((c :: s).drop a.length).contains 0) || hasNulRunF a fuel s

def hasNulRun (a data : List Nat) : Bool := hasNulRunF a data.length data

/-! ## Segment decomposition of a text replace

`breplace a b s` keeps the unmatched stretches of `s` and substitutes `b`
for each matched occurrence of `a`.  `replSegmentsF` computes the list of
kept stretches; joining them with `a` reconstructs `s`, joining them with
`b` yields `breplace a b s`. -/

def replSegmentsF (a : List Nat) : Nat → List Nat → List (List Nat)
  | _, [] => [[]]
  | 0, l => [l]
  | fuel + 1, c :: s =>
    if a ≠ [] ∧ a.isPrefixOf (c :: s) then [] :: replSegmentsF a fuel ((c :: s).drop a.length)
    else
      match replSegmentsF a fuel s with
      | [] => [[c]]
      | seg :: rest => (c :: seg) :: rest

def replSegments (a s : List Nat) : List (List Nat) := replSegmentsF a s.length s

def joinWith (sep : List Nat) : List (List Nat) → List Nat
  | [] => []
  | [x] => x
  | x :: y :: rest => x ++ sep ++ joinWith sep (y :: rest)

/-! ## `update_prefix` (install.py lines 341-367)

Only the content transformation is modelled: text mode is a plain
substring replace of every occurrence of the placeholder, binary mode is
`binary_replace`.  (The function's file I/O — reading the file, removing
it before rewriting to protect hard-linked cache originals, restoring the
mode bits — does not change the produced byte string.) -/

inductive RewriteMode
  | text
  | binary
deriving DecidableEq

def update_prefix (data : List Nat) (newPre : List Nat) (placeholder : List Nat)
    (mode : RewriteMode) : Except Unit (List Nat) :=
  match mode with
  | .text => .ok (pyReplace data placeholder newPre)
  | .binary => binary_replace data placeholder newPre

/-- ASCII byte string of a Lean string literal. -/
def strBytes (s : String) : List Nat := s.data.map Char.toNat


/-! ## Theorems about the prefix rewriter (claims C2, C3, C10) -/

theorem dropWhile_head_not (p : Nat → Bool) :
    ∀ (l : List Nat) x xs, l.dropWhile p = x :: xs → p x = false := by
  intro l
  induction l with
  | nil => intro x xs h; cases h
  | cons y ys ih =>
    intro x xs h
    rw [List.dropWhile_cons] at h
    by_cases hp : p y
    · rw [if_pos hp] at h; exact ih x xs h
    · rw [if_neg hp] at h
      cases h
      simpa using hp

theorem contains_zero_mem {l : List Nat} (h : l.contains 0 = true) : (0 : Nat) ∈ l := by
  simpa using h

theorem breplaceF_length (a b : List Nat) (ha : a ≠ []) :
    ∀ fuel s, s.length ≤ fuel →
      (breplaceF a b fuel s).length + bcountF a fuel s * a.length
        = s.length + bcountF a fuel s * b.length := by
  intro fuel
  induction fuel with
  | zero =>
    intro s hs
    have : s = [] := List.length_eq_zero.mp (Nat.le_zero.mp hs)
    subst this
    simp [breplaceF, bcountF]
  | succ fuel ih =>
    intro s hs
    cases s with
    | nil => simp [breplaceF, bcountF]
    | cons c t =>
      by_cases hc : a ≠ [] ∧ a.isPrefixOf (c :: t)
      · have hpre : a <+: c :: t := List.isPrefixOf_iff_prefix.mp hc.2
        have halen : a.length ≤ (c :: t).length := hpre.length_le
        have hdlen : ((c :: t).drop a.length).length = (c :: t).length - a.length :=
          List.length_drop _ _
        have hfuel : ((c :: t).drop a.length).length ≤ fuel := by
          simp only [List.length_cons] at *
          have : 1 ≤ a.length := by
            cases a with
            | nil => exact absurd rfl ha
            | cons _ _ => simp
          omega
        have ihd := ih _ hfuel
        simp only [breplaceF, bcountF, if_pos hc, List.length_append]
        simp only [List.length_cons] at *
        have h1 : 1 ≤ a.length := by
          cases a with
          | nil => exact absurd rfl ha
          | cons _ _ => simp
        -- abbreviate
        generalize hBC : bcountF a fuel ((c :: t).drop a.length) = n at *
        generalize hBR : (breplaceF a b fuel ((c :: t).drop a.length)).length = m at *
        have expand : (1 + n) * a.length = a.length + n * a.length := by ring
        have expand2 : (1 + n) * b.length = b.length + n * b.length := by ring
        rw [expand, expand2]
        omega
      · have := ih t (by simpa using Nat.le_of_succ_le_succ hs)
        simp only [breplaceF, bcountF, if_neg hc, List.length_cons]
        omega

theorem pyReplace_length (s a b : List Nat) :
    (pyReplace s a b).length + pyCount s a * a.length
      = s.length + pyCount s a * b.length := by
  by_cases ha : a = []
  · subst ha
    have hfl : ((s.map (fun c => c :: b)).flatten).length = s.length * (b.length + 1) := by
      induction s with
      | nil => simp
      | cons c t ih =>
        simp only [List.map_cons, List.flatten_cons, List.length_append, ih, List.length_cons]
        ring
    simp only [pyReplace, pyCount, if_pos rfl, if_true, List.length_append, hfl, List.length_nil,
      Nat.mul_zero, Nat.add_zero]
    ring
  · simp only [pyReplace, pyCount, if_neg ha]
    exact breplaceF_length a b ha s.length s le_rfl

theorem pyCount_pos_of_isPrefixOf {a s : List Nat} (hs : a.isPrefixOf s = true) (hne : s ≠ []) :
    1 ≤ pyCount s a := by
  by_cases ha : a = []
  · simp [pyCount, ha]
  · simp only [pyCount, if_neg ha, bcount]
    cases s with
    | nil => exact absurd rfl hne
    | cons c t =>
      simp only [List.length_cons, bcountF, if_pos (And.intro ha hs)]
      omega

theorem replaceRun_eq {a b : List Nat} (hba : b.length ≤ a.length) (run : List Nat) :
    replaceRun a b run
      = .ok (pyReplace run a b
          ++ List.replicate ((a.length - b.length) * pyCount run a) 0) := by
  simp only [replaceRun]
  set occ := pyCount run a with hocc
  have hpad : ((a.length : Int) - (b.length : Int)) * (occ : Int)
      = (((a.length - b.length) * occ : Nat) : Int) := by
    push_cast [Nat.cast_sub hba]
    ring
  rw [hpad]
  rw [if_neg (not_lt.mpr (Int.natCast_nonneg _))]
  rw [Int.toNat_natCast]

theorem replaceRun_ok {a b : List Nat} (hba : b.length ≤ a.length) (run : List Nat) :
    ∃ r, replaceRun a b run = .ok r ∧ r.length = run.length := by
  rw [replaceRun_eq hba]
  refine ⟨_, rfl, ?_⟩
  rw [List.length_append, List.length_replicate]
  have e1 := pyReplace_length run a b
  have h2 : pyCount run a * a.length
      = pyCount run a * b.length + pyCount run a * (a.length - b.length) := by
    rw [← Nat.mul_add, Nat.add_sub_cancel' hba]
  rw [Nat.mul_comm (a.length - b.length) (pyCount run a)]
  linarith [e1, h2]

theorem subNulRunsF_ok {a b : List Nat} (hba : b.length ≤ a.length) :
    ∀ fuel s, s.length ≤ fuel →
      ∃ r, subNulRunsF a b fuel s = .ok r ∧ r.length = s.length := by
  intro fuel
  induction fuel with
  | zero =>
    intro s hs
    have : s = [] := List.length_eq_zero.mp (Nat.le_zero.mp hs)
    subst this
    exact ⟨[], rfl, rfl⟩
  | succ fuel ih =>
    intro s hs
    cases s with
    | nil => exact ⟨[], rfl, rfl⟩
    | cons c t =>
      by_cases hc : a.isPrefixOf (c :: t) ∧ ((c :: t).drop a.length).contains 0
      · have hpre : a <+: c :: t := List.isPrefixOf_iff_prefix.mp hc.1
        have halen : a.length ≤ (c :: t).length := hpre.length_le
        set rest := (c :: t).drop a.length with hrest
        set mid := rest.takeWhile (fun x => x != 0) with hmid
        have hrlen : rest.length = (c :: t).length - a.length := List.length_drop _ _
        have hmem : (0 : Nat) ∈ rest := contains_zero_mem hc.2
        have hdw : rest.dropWhile (fun x => x != 0) ≠ [] := by
          intro hnil
          have := List.dropWhile_eq_nil_iff.mp hnil 0 hmem
          simp at this
        obtain ⟨x, xs, hxxs⟩ := List.exists_cons_of_ne_nil hdw
        have hx0 : x = 0 := by
          have := dropWhile_head_not (fun x => x != 0) rest x xs hxxs
          simpa using this
        have hsplit : mid ++ (x :: xs) = rest := by
          rw [hmid, ← hxxs]
          exact List.takeWhile_append_dropWhile _ _
        have hlen2 : mid.length + (xs.length + 1) = rest.length := by
          have := congrArg List.length hsplit
          simpa using this
        obtain ⟨r1, hr1, hr1len⟩ := replaceRun_ok hba (a ++ mid ++ [0])
        have hafter : ((rest.dropWhile (fun x => x != 0)).drop 1) = xs := by
          rw [hxxs]; rfl
        have hfuel2 : xs.length ≤ fuel := by
          simp only [List.length_cons] at hs halen hrlen
          omega
        obtain ⟨r2, hr2, hr2len⟩ := ih xs hfuel2
        refine ⟨r1 ++ r2, ?_, ?_⟩
        · simp only [subNulRunsF, if_pos hc]
          rw [← hrest, ← hmid, hafter, hr1, hr2]
        · simp only [List.length_append, hr1len, hr2len, List.length_append,
            List.length_cons, List.length_nil]
          simp only [List.length_cons] at hs halen hrlen
          omega
      · obtain ⟨r2, hr2, hr2len⟩ := ih t (by simpa using Nat.le_of_succ_le_succ hs)
        refine ⟨c :: r2, ?_, by simp [hr2len]⟩
        simp only [subNulRunsF, if_neg hc]
        rw [hr2]

theorem takeWhile_append_zero {mid : List Nat} (h : (0 : Nat) ∉ mid) :
    (mid ++ [0]).takeWhile (fun x => x != 0) = mid := by
  induction mid with
  | nil => rfl
  | cons c t ih =>
    have hc : c ≠ 0 := fun hc => h (by simp [hc])
    simp only [List.cons_append, List.takeWhile_cons]
    rw [if_pos (by simpa using hc)]
    rw [ih (fun ht => h (List.mem_cons_of_mem c ht))]

theorem dropWhile_append_zero {mid : List Nat} (h : (0 : Nat) ∉ mid) :
    (mid ++ [0]).dropWhile (fun x => x != 0) = [0] := by
  induction mid with
  | nil => rfl
  | cons c t ih =>
    have hc : c ≠ 0 := fun hc => h (by simp [hc])
    simp only [List.cons_append, List.dropWhile_cons]
    rw [if_pos (by simpa using hc)]
    exact ih (fun ht => h (List.mem_cons_of_mem c ht))

theorem binary_replace_single_run {a b mid : List Nat} (ha : a ≠ [])
    (hmid : (0 : Nat) ∉ mid) (hba : b.length ≤ a.length) :
    binary_replace (a ++ mid ++ [0]) a b
      = .ok (pyReplace (a ++ mid ++ [0]) a b
          ++ List.replicate ((a.length - b.length) * pyCount (a ++ mid ++ [0]) a) 0) := by
  obtain ⟨c, a', rfl⟩ := List.exists_cons_of_ne_nil ha
  have hpre : (c :: a').isPrefixOf (c :: a' ++ mid ++ [0]) = true := by
    rw [List.isPrefixOf_iff_prefix, List.append_assoc]
    exact List.prefix_append _ _
  have hrest : (c :: a' ++ mid ++ [0]).drop (c :: a').length = mid ++ [0] := by
    rw [List.append_assoc]
    exact List.drop_left _ _
  have hcont : ((c :: a' ++ mid ++ [0]).drop (c :: a').length).contains 0 = true := by
    rw [hrest]
    simp
  have hlen : (c :: a' ++ mid ++ [0]).length = (a' ++ mid ++ [0]).length + 1 := by
    simp
  have hrest2 : List.drop (c :: a').length (c :: (a' ++ mid ++ [0])) = mid ++ [0] := hrest
  simp only [binary_replace]
  rw [hlen]
  simp only [subNulRunsF, List.append_eq]
  rw [if_pos ⟨hpre, hcont⟩]
  rw [hrest2, takeWhile_append_zero hmid, dropWhile_append_zero hmid]
  rw [replaceRun_eq hba]
  simp [subNulRunsF]

theorem replaceRun_error {a b : List Nat} (hab : a.length < b.length) {run : List Nat}
    (hocc : 1 ≤ pyCount run a) : replaceRun a b run = .error () := by
  simp only [replaceRun]
  rw [if_pos]
  exact mul_neg_of_neg_of_pos (sub_neg.mpr (by exact_mod_cast hab))
    (by exact_mod_cast hocc)

theorem subNulRunsF_error {a b : List Nat} (hab : a.length < b.length) :
    ∀ fuel s, s.length ≤ fuel →
      (subNulRunsF a b fuel s = .error () ↔ hasNulRunF a fuel s = true) := by
  intro fuel
  induction fuel with
  | zero =>
    intro s hs
    have : s = [] := List.length_eq_zero.mp (Nat.le_zero.mp hs)
    subst this
    simp [subNulRunsF, hasNulRunF]
  | succ fuel ih =>
    intro s hs
    cases s with
    | nil => simp [subNulRunsF, hasNulRunF]
    | cons c t =>
      by_cases hc : a.isPrefixOf (c :: t) ∧ ((c :: t).drop a.length).contains 0
      · have hocc :
            1 ≤ pyCount (a ++ ((c :: t).drop a.length).takeWhile (fun x => x != 0) ++ [0]) a :=
          pyCount_pos_of_isPrefixOf
            (by rw [List.isPrefixOf_iff_prefix, List.append_assoc]
                exact List.prefix_append _ _)
            (by simp)
        simp only [subNulRunsF, hasNulRunF, if_pos hc]
        rw [replaceRun_error hab hocc]
        rw [hc.1, hc.2]
        simp
      · have hcb : (a.isPrefixOf (c :: t) && ((c :: t).drop a.length).contains 0) = false := by
          cases hb : (a.isPrefixOf (c :: t) && ((c :: t).drop a.length).contains 0) with
          | false => rfl
          | true => exact absurd (Bool.and_eq_true _ _ ▸ hb) hc
        have iht := ih t (by simpa using Nat.le_of_succ_le_succ hs)
        simp only [subNulRunsF, hasNulRunF, if_neg hc, hcb, Bool.false_or]
        rcases hrec : subNulRunsF a b fuel t with e | r2
        · cases e
          rw [iff_true_intro (iht.mp hrec)]
          simp
        · constructor
          · intro h
            cases h
          · intro h
            exact absurd (hrec.symm.trans (iht.mpr h)) (by simp)

theorem subNulRunsF_id {a b : List Nat} :
    ∀ fuel s, s.length ≤ fuel → hasNulRunF a fuel s = false → subNulRunsF a b fuel s = .ok s := by
  intro fuel
  induction fuel with
  | zero =>
    intro s hs _
    have : s = [] := List.length_eq_zero.mp (Nat.le_zero.mp hs)
    subst this
    rfl
  | succ fuel ih =>
    intro s hs hno
    cases s with
    | nil => rfl
    | cons c t =>
      simp only [hasNulRunF, Bool.or_eq_false_iff] at hno
      have hc : ¬ (a.isPrefixOf (c :: t) ∧ ((c :: t).drop a.length).contains 0) := by
        intro h
        have hb : (a.isPrefixOf (c :: t) && ((c :: t).drop a.length).contains 0) = true := by
          rw [h.1, h.2]
          rfl
        rw [hb] at hno
        exact absurd hno.1 (by simp)
      simp only [subNulRunsF, if_neg hc]
      rw [ih t (by simpa using Nat.le_of_succ_le_succ hs) hno.2]

/-- C2: For all byte strings `data`, placeholder `a` and replacement `b`
with `len(b) ≤ len(a)`, `binary_replace(data, a, b)` succeeds and returns a
byte string of exactly the same length as `data`; each matched run
`a ++ mid ++ NUL` (with `mid` NUL-free) is rewritten by replacing every
occurrence of `a` with `b` and padding the tail with
`(len(a) - len(b)) * occurrences` NUL bytes; in particular
`binary_replace(b"zAAAA\0AAAA\0", b"AAAA", b"B") = b"zB\0\0\0\0B\0\0\0\0"`
(length 11 preserved). -/
theorem binary_replace_length_preserving :
    (∀ data a b : List Nat, b.length ≤ a.length →
        ∃ res, binary_replace data a b = .ok res ∧ res.length = data.length) ∧
    (∀ a b mid : List Nat, a ≠ [] → (0 : Nat) ∉ mid → b.length ≤ a.length →
        binary_replace (a ++ mid ++ [0]) a b
          = .ok (pyReplace (a ++ mid ++ [0]) a b
              ++ List.replicate ((a.length - b.length) * pyCount (a ++ mid ++ [0]) a) 0)) ∧
    binary_replace [122, 65, 65, 65, 65, 0, 65, 65, 65, 65, 0] [65, 65, 65, 65] [66]
      = .ok [122, 66, 0, 0, 0, 0, 66, 0, 0, 0, 0] :=
  ⟨fun data a b hba => subNulRunsF_ok hba data.length data le_rfl,
   fun a b mid ha hmid hba => binary_replace_single_run ha hmid hba,
   by decide⟩

/-- Witness for C2 at the concrete S2 input. -/
theorem binary_replace_length_preserving_witness :
    ∃ res, binary_replace [122, 65, 65, 65, 65, 0, 65, 65, 65, 65, 0] [65, 65, 65, 65] [66]
        = .ok res
      ∧ res.length = ([122, 65, 65, 65, 65, 0, 65, 65, 65, 65, 0] : List Nat).length :=
  binary_replace_length_preserving.1 _ _ _ (by decide)

/-- C3 counterexample: The claim says `PaddingError` is raised exactly
when `len(B) > len(A) * occurrences` for some NUL-terminated run.  With
placeholder `b"AA"`, replacement `b"BBB"` and data `b"AAAA\0"` the single
run holds 2 occurrences, so the claim's condition `3 > 2 * 2` is false —
yet the code computes padding `(2 - 3) * 2 = -2 < 0` and raises
`PaddingError`. -/
theorem binary_replace_padding_error_cex :
    binary_replace [65, 65, 65, 65, 0] [65, 65] [66, 66, 66] = .error () ∧
    ¬ (([66, 66, 66] : List Nat).length
        > ([65, 65] : List Nat).length * pyCount [65, 65, 65, 65, 0] [65, 65]) := by
  decide

/-- C3 amended: `binary_replace` raises `PaddingError` iff the
replacement is strictly longer than the placeholder and some occurrence of
the placeholder starts a NUL-terminated run (equivalently, the per-run
padding `(len(A) - len(B)) * occurrences` is negative for the first
matched run). -/
theorem binary_replace_padding_error_iff :
    ∀ a b data : List Nat, a.length < b.length →
      (binary_replace data a b = .error () ↔ hasNulRun a data = true) :=
  fun a b data hab => subNulRunsF_error hab data.length data le_rfl

/-- Witness for amended C3 at the concrete S3 input: placeholder `b"A"`,
replacement `b"BB"`, data `b"A\0"` raises `PaddingError`. -/
theorem binary_replace_padding_error_iff_witness :
    ([65] : List Nat).length < ([66, 66] : List Nat).length ∧
    binary_replace [65, 0] [65] [66, 66] = .error () :=
  ⟨by decide, (binary_replace_padding_error_iff [65] [66, 66] [65, 0] (by decide)).mpr (by decide)⟩

/-- C10: `binary_replace` substitutes only occurrences of the
placeholder that begin a NUL-terminated run: when no occurrence of the
placeholder is followed by a NUL terminator, the data is returned
unchanged and no `PaddingError` is raised, even for a replacement longer
than the placeholder. -/
theorem binary_replace_no_terminated_run_id :
    ∀ a b data : List Nat, hasNulRun a data = false → binary_replace data a b = .ok data :=
  fun a b data h => subNulRunsF_id data.length data le_rfl h

/-- Witness for C10: data equal to the placeholder with no trailing NUL,
replacement longer than the placeholder. -/
theorem binary_replace_no_terminated_run_id_witness :
    hasNulRun [65] [65] = false ∧ binary_replace [65] [65] [66, 66] = .ok [65] :=
  ⟨by decide, binary_replace_no_terminated_run_id [65] [66, 66] [65] (by decide)⟩


/-! ## Theorems about the text rewriter (claim C4) -/

theorem replSegmentsF_ne_nil (a : List Nat) : ∀ fuel s, replSegmentsF a fuel s ≠ [] := by
  intro fuel s
  match fuel, s with
  | _, [] => simp [replSegmentsF]
  | 0, _ :: _ => simp [replSegmentsF]
  | fuel + 1, c :: t =>
    rw [replSegmentsF]
    by_cases hc : a ≠ [] ∧ a.isPrefixOf (c :: t)
    · rw [if_pos hc]
      simp
    · rw [if_neg hc]
      rcases hr : replSegmentsF a fuel t with _ | ⟨seg, rest⟩ <;> simp

theorem replSegmentsF_head_prefix (a : List Nat) :
    ∀ fuel s seg rest, replSegmentsF a fuel s = seg :: rest → seg <+: s := by
  intro fuel
  induction fuel with
  | zero =>
    intro s seg rest h
    match s, h with
    | [], h =>
      cases h
      exact List.nil_prefix
    | _ :: _, h =>
      cases h
      exact List.prefix_refl _
  | succ fuel ih =>
    intro s seg rest h
    match s, h with
    | [], h =>
      cases h
      exact List.nil_prefix
    | c :: t, h =>
      by_cases hc : a ≠ [] ∧ a.isPrefixOf (c :: t)
      · rw [replSegmentsF, if_pos hc] at h
        cases h
        exact List.nil_prefix
      · rw [replSegmentsF, if_neg hc] at h
        rcases hr : replSegmentsF a fuel t with _ | ⟨seg', rest'⟩
        · rw [hr] at h
          obtain ⟨h1, h2⟩ := List.cons_eq_cons.mp h
          rw [← h1]
          simp
        · rw [hr] at h
          obtain ⟨h1, h2⟩ := List.cons_eq_cons.mp h
          rw [← h1]
          exact (List.cons_prefix_cons).mpr ⟨rfl, ih t seg' rest' hr⟩

theorem replSegmentsF_join_a {a : List Nat} (ha : a ≠ []) :
    ∀ fuel s, s.length ≤ fuel → joinWith a (replSegmentsF a fuel s) = s := by
  intro fuel
  induction fuel with
  | zero =>
    intro s hs
    have : s = [] := List.length_eq_zero.mp (Nat.le_zero.mp hs)
    subst this
    rfl
  | succ fuel ih =>
    intro s hs
    cases s with
    | nil => rfl
    | cons c t =>
      by_cases hc : a ≠ [] ∧ a.isPrefixOf (c :: t)
      · have hpre : a <+: c :: t := List.isPrefixOf_iff_prefix.mp hc.2
        have halen : a.length ≤ (c :: t).length := hpre.length_le
        have h1 : 1 ≤ a.length := by
          cases a with
          | nil => exact absurd rfl ha
          | cons _ _ => simp
        have hfuel : ((c :: t).drop a.length).length ≤ fuel := by
          rw [List.length_drop]
          simp only [List.length_cons] at hs ⊢
          omega
        obtain ⟨r2, hr2⟩ := hpre
        have hdrop : (c :: t).drop a.length = r2 := by
          rw [← hr2]
          exact List.drop_left _ _
        have htd : a ++ (c :: t).drop a.length = c :: t := by
          rw [hdrop, hr2]
        rw [replSegmentsF, if_pos hc]
        rcases hr : replSegmentsF a fuel ((c :: t).drop a.length) with _ | ⟨seg, rest⟩
        · exact absurd hr (replSegmentsF_ne_nil a _ _)
        · rw [joinWith, ← hr, ih _ hfuel]
          simpa using htd
      · rw [replSegmentsF, if_neg hc]
        rcases hr : replSegmentsF a fuel t with _ | ⟨seg, rest⟩
        · exact absurd hr (replSegmentsF_ne_nil a _ _)
        · have iht := ih t (by simpa using Nat.le_of_succ_le_succ hs)
          rw [hr] at iht
          cases rest with
          | nil => simp only [joinWith] at iht ⊢; rw [iht]
          | cons seg2 rest2 =>
            simp only [joinWith] at iht ⊢
            rw [List.cons_append, List.cons_append, iht]

theorem replSegmentsF_join_b {a : List Nat} (b : List Nat) (ha : a ≠ []) :
    ∀ fuel s, s.length ≤ fuel →
      joinWith b (replSegmentsF a fuel s) = breplaceF a b fuel s := by
  intro fuel
  induction fuel with
  | zero =>
    intro s hs
    have : s = [] := List.length_eq_zero.mp (Nat.le_zero.mp hs)
    subst this
    rfl
  | succ fuel ih =>
    intro s hs
    cases s with
    | nil => rfl
    | cons c t =>
      by_cases hc : a ≠ [] ∧ a.isPrefixOf (c :: t)
      · have hpre : a <+: c :: t := List.isPrefixOf_iff_prefix.mp hc.2
        have halen : a.length ≤ (c :: t).length := hpre.length_le
        have h1 : 1 ≤ a.length := by
          cases a with
          | nil => exact absurd rfl ha
          | cons _ _ => simp
        have hfuel : ((c :: t).drop a.length).length ≤ fuel := by
          rw [List.length_drop]
          simp only [List.length_cons] at hs ⊢
          omega
        rw [replSegmentsF, breplaceF, if_pos hc, if_pos hc]
        rcases hr : replSegmentsF a fuel ((c :: t).drop a.length) with _ | ⟨seg, rest⟩
        · exact absurd hr (replSegmentsF_ne_nil a _ _)
        · rw [joinWith, ← hr, ih _ hfuel]
          simp
      · rw [replSegmentsF, breplaceF, if_neg hc, if_neg hc]
        rcases hr : replSegmentsF a fuel t with _ | ⟨seg, rest⟩
        · exact absurd hr (replSegmentsF_ne_nil a _ _)
        · have iht := ih t (by simpa using Nat.le_of_succ_le_succ hs)
          rw [hr] at iht
          cases rest with
          | nil => simp only [joinWith] at iht ⊢; rw [iht]
          | cons seg2 rest2 =>
            simp only [joinWith] at iht ⊢
            rw [List.cons_append, List.cons_append, iht]

theorem replSegmentsF_length (a : List Nat) :
    ∀ fuel s, s.length ≤ fuel → (replSegmentsF a fuel s).length = bcountF a fuel s + 1 := by
  intro fuel
  induction fuel with
  | zero =>
    intro s hs
    have : s = [] := List.length_eq_zero.mp (Nat.le_zero.mp hs)
    subst this
    rfl
  | succ fuel ih =>
    intro s hs
    cases s with
    | nil => rfl
    | cons c t =>
      by_cases hc : a ≠ [] ∧ a.isPrefixOf (c :: t)
      · have hpre : a <+: c :: t := List.isPrefixOf_iff_prefix.mp hc.2
        have halen : a.length ≤ (c :: t).length := hpre.length_le
        have h1 : 1 ≤ a.length := by
          cases a with
          | nil => exact absurd rfl hc.1
          | cons _ _ => simp
        have hfuel : ((c :: t).drop a.length).length ≤ fuel := by
          rw [List.length_drop]
          simp only [List.length_cons] at hs ⊢
          omega
        rw [replSegmentsF, bcountF, if_pos hc, if_pos hc]
        simp only [List.length_cons, ih _ hfuel]
        omega
      · rw [replSegmentsF, bcountF, if_neg hc, if_neg hc]
        have iht := ih t (by simpa using Nat.le_of_succ_le_succ hs)
        rcases hr : replSegmentsF a fuel t with _ | ⟨seg, rest⟩
        · exact absurd hr (replSegmentsF_ne_nil a _ _)
        · rw [hr] at iht
          simp only [List.length_cons] at iht ⊢
          omega

theorem replSegmentsF_no_infix {a : List Nat} (ha : a ≠ []) :
    ∀ fuel s, s.length ≤ fuel → ∀ seg ∈ replSegmentsF a fuel s, ¬ a <:+: seg := by
  intro fuel
  induction fuel with
  | zero =>
    intro s hs seg hseg hinf
    have : s = [] := List.length_eq_zero.mp (Nat.le_zero.mp hs)
    subst this
    rcases List.mem_singleton.mp hseg with rfl
    exact ha (List.infix_nil.mp hinf)
  | succ fuel ih =>
    intro s hs seg hseg hinf
    cases s with
    | nil =>
      rcases List.mem_singleton.mp hseg with rfl
      exact ha (List.infix_nil.mp hinf)
    | cons c t =>
      by_cases hc : a ≠ [] ∧ a.isPrefixOf (c :: t)
      · have hpre : a <+: c :: t := List.isPrefixOf_iff_prefix.mp hc.2
        have halen : a.length ≤ (c :: t).length := hpre.length_le
        have h1 : 1 ≤ a.length := by
          cases a with
          | nil => exact absurd rfl ha
          | cons _ _ => simp
        have hfuel : ((c :: t).drop a.length).length ≤ fuel := by
          rw [List.length_drop]
          simp only [List.length_cons] at hs ⊢
          omega
        rw [replSegmentsF, if_pos hc] at hseg
        rcases List.mem_cons.mp hseg with rfl | hseg'
        · exact ha (List.infix_nil.mp hinf)
        · exact ih _ hfuel seg hseg' hinf
      · have hfuel : t.length ≤ fuel := by simpa using Nat.le_of_succ_le_succ hs
        rw [replSegmentsF, if_neg hc] at hseg
        rcases hr : replSegmentsF a fuel t with _ | ⟨seg', rest'⟩
        · exact absurd hr (replSegmentsF_ne_nil a _ _)
        · rw [hr] at hseg
          rcases List.mem_cons.mp hseg with rfl | hseg2
          · rcases hinf with ⟨s1, t1, heq⟩
            cases s1 with
            | nil =>
              have hpre : a <+: c :: seg' := ⟨t1, by simpa using heq⟩
              have hsp : seg' <+: t := replSegmentsF_head_prefix a fuel t seg' rest' hr
              have hact : a <+: c :: t := hpre.trans ((List.cons_prefix_cons).mpr ⟨rfl, hsp⟩)
              exact hc ⟨ha, List.isPrefixOf_iff_prefix.mpr hact⟩
            | cons x s1' =>
              have heq' : x :: (s1' ++ a ++ t1) = c :: seg' := by simpa using heq
              have htl : s1' ++ a ++ t1 = seg' := (List.cons_eq_cons.mp heq').2
              exact ih t hfuel seg' (hr ▸ List.mem_cons_self seg' rest') ⟨s1', t1, htl⟩
          · exact ih t hfuel seg (hr ▸ List.mem_cons_of_mem seg' hseg2) hinf

/-- C4 counterexample: The claim says text-mode rewriting of contents
with exactly `k` placeholder occurrences yields exactly `k` occurrences of
the replacement.  With contents `b"BA"`, placeholder `b"A"` (`k = 1`) and
replacement `b"B"`, the output is `b"BB"`, which contains 2 occurrences of
the replacement, not 1. -/
theorem update_prefix_text_cex :
    pyCount [66, 65] [65] = 1 ∧
    update_prefix [66, 65] [66] [65] .text = .ok [66, 66] ∧
    pyCount [66, 66] [66] = 2 := by
  decide

/-- C4 amended: Text mode replaces every left-to-right non-overlapping
occurrence of the placeholder: the contents decompose into
`pyCount data a + 1` placeholder-free kept segments joined by the
placeholder, and the output is the same segments joined by the
replacement.  The zero-placeholder / exactly-`k`-replacement occurrence
counts, which do not hold for arbitrary contents, do hold for the S1
scenario: `b"#!/opt/anaconda1anaconda2anaconda3/bin/python\n"` rewritten
to prefix `/x` yields `b"#!/x/bin/python\n"`. -/
theorem update_prefix_text_segments :
    (∀ data a b : List Nat, a ≠ [] →
      update_prefix data b a .text = .ok (joinWith b (replSegments a data)) ∧
      joinWith a (replSegments a data) = data ∧
      (replSegments a data).length = pyCount data a + 1 ∧
      ∀ seg ∈ replSegments a data, ¬ a <:+: seg) ∧
    ( update_prefix (strBytes "#!/opt/anaconda1anaconda2anaconda3/bin/python\n") (strBytes "/x")
        (strBytes "/opt/anaconda1anaconda2anaconda3") .text
        = .ok (strBytes "#!/x/bin/python\n") ∧
      pyCount (strBytes "#!/opt/anaconda1anaconda2anaconda3/bin/python\n")
        (strBytes "/opt/anaconda1anaconda2anaconda3") = 1 ∧
      pyCount (strBytes "#!/x/bin/python\n") (strBytes "/opt/anaconda1anaconda2anaconda3") = 0 ∧
      pyCount (strBytes "#!/x/bin/python\n") (strBytes "/x") = 1) := by
  constructor
  · intro data a b ha
    refine ⟨?_, replSegmentsF_join_a ha data.length data le_rfl,
      ?_, replSegmentsF_no_infix ha data.length data le_rfl⟩
    · simp only [ update_prefix, pyReplace, if_neg ha, breplace, replSegments]
      rw [replSegmentsF_join_b b ha data.length data le_rfl]
    · simp only [pyCount, if_neg ha, bcount]
      exact replSegmentsF_length a data.length data le_rfl
  · exact ⟨by decide, by decide, by decide, by decide⟩

/-- Witness for amended C4 at a concrete input. -/
theorem update_prefix_text_segments_witness :
    update_prefix [66, 65] [67] [65] .text = .ok (joinWith [67] (replSegments [65] [66, 65])) ∧
    joinWith [65] (replSegments [65] [66, 65]) = [66, 65] ∧
    (replSegments [65] [66, 65]).length = pyCount [66, 65] [65] + 1 ∧
    ∀ seg ∈ replSegments [65] [66, 65], ¬ [65] <:+: seg :=
  update_prefix_text_segments.1 [66, 65] [65] [67] (by decide)


/-! ## Distribution-key utilities (install.py lines 370-378)

A distribution key is `[<schannel>::]<name>-<version>-<build>`.
`name_dist` is `dist.split('::', 1)[-1].rsplit('-', 2)[0]`: the part after
the first `::` (if any) with the last two `-`-separated fields removed. -/

/-- The characters after the first occurrence of `::`, if there is one. -/
def afterDoubleColon : List Char → Option (List Char)
  | ':' :: ':' :: s => some s
  | _ :: s => afterDoubleColon s
  | [] => none

/-- Python `split('::', 1)[-1]`. -/
def channelTail (s : List Char) : List Char := (afterDoubleColon s).getD s

/-- Remove the last `-`-separated field: one `rsplit('-', 1)[0]` step (the
string itself when it holds no `-`). -/
def dropLastField (s : List Char) : List Char :=
  if '-' ∈ s then ((s.reverse.dropWhile (fun c => c != '-')).tail).reverse else s

/-- Function `name_dist` (install.py lines 374-375). -/
def name_dist (dist : String) : String :=
  ⟨dropLastField (dropLastField (channelTail dist.data))⟩

/-- The characters before and after the first `::`, if present. -/
def splitDoubleColon : List Char → Option (List Char × List Char)
  | ':' :: ':' :: s => some ([], s)
  | c :: s => (splitDoubleColon s).map (fun p => (c :: p.1, p.2))
  | [] => none

/-- Function `_dist2pair` (install.py lines 370-372). -/
def dist2pair (dist : String) : String × String :=
  match splitDoubleColon dist.data with
  | none => ("defaults", dist)
  | some (c, t) => (⟨c⟩, ⟨t⟩)

/-- Function `_dist2filename` (install.py lines 377-378). -/
def dist2filename (dist suffix : String) : String := ⟨channelTail dist.data⟩ ++ suffix

/-! ## Lexicographic string order

Python compares strings lexicographically by code point; `sorted` uses
this order.  Mathlib's `LinearOrder String` has the same semantics but its
comparison does not reduce inside the kernel, so an executable comparison
is defined here and proved to be a total order. -/

def lexLeb : List Char → List Char → Bool
  | [], _ => true
  | _ :: _, [] => false
  | a :: as, b :: bs => if a < b then true else if b < a then false else lexLeb as bs

def strle (a b : String) : Prop := lexLeb a.data b.data = true

theorem lexLeb_refl : ∀ a, lexLeb a a = true := by
  intro a
  induction a with
  | nil => rfl
  | cons x xs ih => simp [lexLeb, ih]

theorem lexLeb_total : ∀ a b, lexLeb a b = true ∨ lexLeb b a = true := by
  intro a
  induction a with
  | nil => intro b; left; rfl
  | cons x xs ih =>
    intro b
    cases b with
    | nil => right; rfl
    | cons y ys =>
      by_cases h1 : x < y
      · left; simp [lexLeb, h1]
      · by_cases h2 : y < x
        · right; simp [lexLeb, h2]
        · have hxy : x = y := le_antisymm (not_lt.mp h2) (not_lt.mp h1)
          subst hxy
          rcases ih ys with h | h
          · left; simp [lexLeb, h1, h]
          · right; simp [lexLeb, h1, h]

theorem lexLeb_antisymm : ∀ a b, lexLeb a b = true → lexLeb b a = true → a = b := by
  intro a
  induction a with
  | nil =>
    intro b _ hb
    cases b with
    | nil => rfl
    | cons y ys => simp [lexLeb] at hb
  | cons x xs ih =>
    intro b ha hb
    cases b with
    | nil => simp [lexLeb] at ha
    | cons y ys =>
      by_cases h1 : x < y
      · have h1' : ¬ y < x := asymm h1
        simp [lexLeb, h1, h1'] at hb
      · by_cases h2 : y < x
        · simp [lexLeb, h1, h2] at ha
        · have hxy : x = y := le_antisymm (not_lt.mp h2) (not_lt.mp h1)
          subst hxy
          simp only [lexLeb, if_neg h1] at ha hb
          rw [ih ys ha hb]

theorem lexLeb_trans : ∀ a b c, lexLeb a b = true → lexLeb b c = true → lexLeb a c = true := by
  intro a
  induction a with
  | nil => intros; rfl
  | cons x xs ih =>
    intro b c hab hbc
    cases b with
    | nil => simp [lexLeb] at hab
    | cons y ys =>
      cases c with
      | nil => simp [lexLeb] at hbc
      | cons z zs =>
        simp only [lexLeb] at hab hbc ⊢
        rcases lt_trichotomy x y with hxy | hxy | hxy
        · rcases lt_trichotomy y z with hyz | hyz | hyz
          · simp [lt_trans hxy hyz]
          · subst hyz; simp [hxy]
          · simp [hyz, asymm hyz] at hbc
        · subst hxy
          rcases lt_trichotomy x z with hxz | hxz | hxz
          · simp [hxz]
          · subst hxz
            simp only [lt_irrefl, if_neg (lt_irrefl x)] at hab hbc ⊢
            exact ih ys zs hab hbc
          · simp [hxz, asymm hxz] at hbc
        · simp [hxy, asymm hxy] at hab

instance : DecidableRel strle := fun a b => by
  unfold strle
  infer_instance

instance : IsTrans String strle := ⟨fun a b c => lexLeb_trans a.data b.data c.data⟩

instance : IsAntisymm String strle :=
  ⟨fun a b h1 h2 => String.ext (lexLeb_antisymm a.data b.data h1 h2)⟩

instance : IsTotal String strle := ⟨fun a b => lexLeb_total a.data b.data⟩

/-! ## An executable `sorted` for finite sets of strings

Python's `sorted` applied to a `set`; insertion sort over the underlying
multiset (well defined because sorting is permutation invariant). -/

def srtInsert (x : String) : List String → List String
  | [] => [x]
  | y :: ys => if lexLeb x.data y.data then x :: y :: ys else y :: srtInsert x ys

def srtSort : List String → List String
  | [] => []
  | x :: xs => srtInsert x (srtSort xs)

theorem srtInsert_perm (x : String) : ∀ l, List.Perm (srtInsert x l) (x :: l) := by
  intro l
  induction l with
  | nil => exact List.Perm.refl _
  | cons y ys ih =>
    by_cases h : lexLeb x.data y.data
    · simp [srtInsert, h]
    · simp only [srtInsert, if_neg h]
      exact ((ih.cons y).trans (List.Perm.swap x y ys))

theorem srtSort_perm : ∀ l, List.Perm (srtSort l) l := by
  intro l
  induction l with
  | nil => exact List.Perm.refl _
  | cons x xs ih => exact (srtInsert_perm x (srtSort xs)).trans (ih.cons x)

theorem srtInsert_sorted (x : String) :
    ∀ l, l.Sorted strle → (srtInsert x l).Sorted strle := by
  intro l
  induction l with
  | nil =>
    intro _
    simp [srtInsert, List.Sorted]
  | cons y ys ih =>
    intro hs
    rw [List.sorted_cons] at hs
    by_cases h : lexLeb x.data y.data
    · simp only [srtInsert, if_pos h]
      rw [List.sorted_cons]
      constructor
      · intro b hb
        rcases List.mem_cons.mp hb with rfl | hb
        · exact h
        · exact lexLeb_trans _ _ _ h (hs.1 b hb)
      · rw [List.sorted_cons]
        exact hs
    · simp only [srtInsert, if_neg h]
      rw [List.sorted_cons]
      constructor
      · intro b hb
        have hb' := (srtInsert_perm x ys).mem_iff.mp hb
        rcases List.mem_cons.mp hb' with hbx | hb'
        · rw [hbx]
          rcases lexLeb_total x.data y.data with h' | h'
          · exact absurd h' h
          · exact h'
        · exact hs.1 b hb'
      · exact ih hs.2

theorem srtSort_sorted : ∀ l, (srtSort l).Sorted strle := by
  intro l
  induction l with
  | nil => simp [srtSort, List.Sorted]
  | cons x xs ih => exact srtInsert_sorted x _ ih

theorem srtSort_eq_of_perm {a b : List String} (h : List.Perm a b) : srtSort a = srtSort b :=
  List.eq_of_perm_of_sorted ((srtSort_perm a).trans (h.trans (srtSort_perm b).symm))
    (srtSort_sorted a) (srtSort_sorted b)

/-- Python `sorted` of a finite set of strings. -/
def fsort (s : Finset String) : List String :=
  Quot.liftOn s.val srtSort (fun _ _ h => srtSort_eq_of_perm h)

theorem mem_fsort (s : Finset String) (x : String) : x ∈ fsort s ↔ x ∈ s := by
  rcases s with ⟨val, nd⟩
  induction val using Quot.ind with
  | _ l => exact (srtSort_perm _).mem_iff

theorem fsort_nodup (s : Finset String) : (fsort s).Nodup := by
  rcases s with ⟨val, nd⟩
  induction val using Quot.ind with
  | _ l => exact (srtSort_perm l).nodup_iff.mpr nd

theorem fsort_sorted (s : Finset String) : (fsort s).Sorted strle := by
  rcases s with ⟨val, nd⟩
  induction val using Quot.ind with
  | _ l => exact srtSort_sorted l

theorem fsort_toFinset (s : Finset String) : (fsort s).toFinset = s := by
  ext x
  rw [List.mem_toFinset, mem_fsort]

/-! ## `duplicates_to_remove` (install.py lines 959-987)

`dist_metas` and `keep_dists` are finite sets of distribution keys.  The
source groups `dist_metas` by `name_dist`, and for each group of size at
least 2 marks the non-keep members for removal when the group meets
`keep_dists`, else all but the last of the sorted group
(`sorted(dists)[:-1]`); it returns the sorted union. -/

def dupGroup (dm : Finset String) (n : String) : Finset String :=
  dm.filter (fun d => name_dist d = n)

def dupBranch (dm kd : Finset String) (n : String) : Finset String :=
  let dists := dupGroup dm n
  if dists.card = 1 then ∅
  else if (dists ∩ kd).Nonempty then dists \ kd
  else ((fsort dists).dropLast).toFinset

def removalSet (dm kd : Finset String) : Finset String :=
  (dm.image name_dist).biUnion (dupBranch dm kd)

def duplicates_to_remove (dm kd : Finset String) : List String :=
  fsort (removalSet dm kd)

/-- The lexicographically greatest element of a finite set of strings
(`sorted(dists)[-1]`), if the set is nonempty. -/
def maxStr (g : Finset String) : Option String := (fsort g).getLast?

theorem fsort_length (s : Finset String) : (fsort s).length = s.card := by
  rcases s with ⟨val, nd⟩
  induction val using Quot.ind with
  | _ l => exact (srtSort_perm l).length_eq

theorem sorted_le_getLast :
    ∀ {l : List String}, l.Sorted strle → ∀ x ∈ l, ∀ h : l ≠ [], strle x (l.getLast h) := by
  intro l
  induction l with
  | nil =>
    intro _ x hx
    cases hx
  | cons y ys ih =>
    intro hs x hx hne
    rw [List.sorted_cons] at hs
    cases ys with
    | nil =>
      rcases List.mem_singleton.mp (by simpa using hx) with rfl
      exact lexLeb_refl _
    | cons z zs =>
      rw [List.getLast_cons (by simp)]
      rcases List.mem_cons.mp hx with rfl | hx'
      · exact hs.1 _ (List.getLast_mem _)
      · exact ih hs.2 x hx' (by simp)

theorem mem_dropLast_iff {l : List String} (hnd : l.Nodup) (hne : l ≠ []) (x : String) :
    x ∈ l.dropLast ↔ x ∈ l ∧ x ≠ l.getLast hne := by
  have hdecomp := List.dropLast_append_getLast hne
  constructor
  · intro hx
    refine ⟨by rw [← hdecomp]; exact List.mem_append_left _ hx, ?_⟩
    intro hxe
    have hnd2 : (l.dropLast ++ [l.getLast hne]).Nodup := by rw [hdecomp]; exact hnd
    have hdisj := (List.nodup_append.mp hnd2).2.2
    exact hdisj hx (by rw [hxe]; exact List.mem_singleton_self _)
  · rintro ⟨hx, hxe⟩
    rw [← hdecomp] at hx
    rcases List.mem_append.mp hx with h | h
    · exact h
    · rcases List.mem_singleton.mp h with rfl
      exact absurd rfl hxe

theorem mem_dupBranch (dm kd : Finset String) (n d : String) :
    d ∈ dupBranch dm kd n ↔
      d ∈ dupGroup dm n ∧ 1 < (dupGroup dm n).card ∧
        (if ((dupGroup dm n) ∩ kd).Nonempty then d ∉ kd
         else maxStr (dupGroup dm n) ≠ some d) := by
  unfold dupBranch
  by_cases h1 : (dupGroup dm n).card = 1
  · simp only [if_pos h1, Finset.not_mem_empty, false_iff]
    rintro ⟨hdg, hcard, _⟩
    omega
  · simp only [if_neg h1]
    by_cases h2 : (dupGroup dm n ∩ kd).Nonempty
    · simp only [if_pos h2, Finset.mem_sdiff]
      constructor
      · rintro ⟨hdg, hdk⟩
        have hcard : 1 ≤ (dupGroup dm n).card := Finset.card_pos.mpr ⟨d, hdg⟩
        exact ⟨hdg, by omega, hdk⟩
      · rintro ⟨hdg, hcard, hrest⟩
        exact ⟨hdg, hrest⟩
    · simp only [if_neg h2, List.mem_toFinset]
      constructor
      · intro hx
        have hne : fsort (dupGroup dm n) ≠ [] := by
          intro h0
          rw [h0] at hx
          cases hx
        have hmem := (mem_dropLast_iff (fsort_nodup _) hne d).mp hx
        have hdg : d ∈ dupGroup dm n := (mem_fsort _ d).mp hmem.1
        have hlen : 1 ≤ (fsort (dupGroup dm n)).dropLast.length :=
          List.length_pos.mpr (List.ne_nil_of_mem hx)
        have hlen2 : (fsort (dupGroup dm n)).dropLast.length
            = (fsort (dupGroup dm n)).length - 1 := List.length_dropLast _
        have hcard : 1 < (dupGroup dm n).card := by
          rw [← fsort_length]
          omega
        refine ⟨hdg, hcard, ?_⟩
        unfold maxStr
        rw [List.getLast?_eq_getLast _ hne]
        intro hsome
        exact hmem.2 (Option.some.inj hsome).symm
      · rintro ⟨hdg, hcard, hrest⟩
        have hdf : d ∈ fsort (dupGroup dm n) := (mem_fsort _ d).mpr hdg
        have hne : fsort (dupGroup dm n) ≠ [] := List.ne_nil_of_mem hdf
        rw [mem_dropLast_iff (fsort_nodup _) hne d]
        refine ⟨hdf, ?_⟩
        intro hlast
        apply hrest
        unfold maxStr
        rw [List.getLast?_eq_getLast _ hne, ← hlast]

theorem mem_removalSet (dm kd : Finset String) (d : String) :
    d ∈ removalSet dm kd ↔ d ∈ dupBranch dm kd (name_dist d) := by
  unfold removalSet
  rw [Finset.mem_biUnion]
  constructor
  · rintro ⟨n, hn, hd⟩
    have hdg : d ∈ dupGroup dm n := ((mem_dupBranch dm kd n d).mp hd).1
    have hname : name_dist d = n := (Finset.mem_filter.mp hdg).2
    rwa [hname]
  · intro hd
    refine ⟨name_dist d, ?_, hd⟩
    have hdg : d ∈ dupGroup dm (name_dist d) := ((mem_dupBranch dm kd _ d).mp hd).1
    exact Finset.mem_image_of_mem name_dist (Finset.mem_filter.mp hdg).1

theorem mem_duplicates_to_remove (dm kd : Finset String) (d : String) :
    d ∈ duplicates_to_remove dm kd ↔ d ∈ dupBranch dm kd (name_dist d) := by
  unfold duplicates_to_remove
  rw [mem_fsort]
  exact mem_removalSet dm kd d

theorem maxStr_spec (g : Finset String) (m : String) (h : maxStr g = some m) :
    m ∈ g ∧ ∀ x ∈ g, strle x m := by
  unfold maxStr at h
  have hne : fsort g ≠ [] := by
    intro h0
    rw [h0] at h
    cases h
  rw [List.getLast?_eq_getLast _ hne] at h
  have hm := Option.some.inj h
  subst hm
  constructor
  · exact (mem_fsort g _).mp (List.getLast_mem hne)
  · intro x hx
    exact sorted_le_getLast (fsort_sorted g) x ((mem_fsort g x).mpr hx) hne

/-- C6: `duplicates_to_remove` groups `dist_metas` by package name;
a distribution is removed iff its name group has size at least 2 and
either the group meets `keep_dists` and the distribution is not kept, or
the group misses `keep_dists` and the distribution is not the
lexicographically greatest member; the result is sorted, never contains a
member of `keep_dists`, and on `{foo-1-0, foo-2-0, bar-1-0}` returns
`[foo-1-0]` both for keep-set `{foo-2-0}` and for the empty keep-set. -/
theorem duplicates_to_remove_spec :
    (∀ dm kd : Finset String, ∀ d ∈ duplicates_to_remove dm kd, d ∉ kd) ∧
    (∀ dm kd : Finset String, ∀ d : String,
        d ∈ duplicates_to_remove dm kd ↔
          d ∈ dupGroup dm (name_dist d) ∧ 1 < (dupGroup dm (name_dist d)).card ∧
            (if (dupGroup dm (name_dist d) ∩ kd).Nonempty then d ∉ kd
             else maxStr (dupGroup dm (name_dist d)) ≠ some d)) ∧
    (∀ dm kd : Finset String, (duplicates_to_remove dm kd).Sorted strle) ∧
    (∀ (g : Finset String) (m : String), maxStr g = some m → m ∈ g ∧ ∀ x ∈ g, strle x m) ∧
    duplicates_to_remove {"foo-1-0", "foo-2-0", "bar-1-0"} {"foo-2-0"} = ["foo-1-0"] ∧
    duplicates_to_remove {"foo-1-0", "foo-2-0", "bar-1-0"} ∅ = ["foo-1-0"] := by
  refine ⟨?_, ?_, ?_, maxStr_spec, by decide, by decide⟩
  · intro dm kd d hd
    obtain ⟨hdg, hcard, hcond⟩ :=
      ((mem_duplicates_to_remove dm kd d).mp hd |> (mem_dupBranch dm kd _ d).mp)
    by_cases h2 : (dupGroup dm (name_dist d) ∩ kd).Nonempty
    · rw [if_pos h2] at hcond
      exact hcond
    · rw [if_neg h2] at hcond
      intro hdk
      exact h2 ⟨d, Finset.mem_inter.mpr ⟨hdg, hdk⟩⟩
  · intro dm kd d
    rw [mem_duplicates_to_remove]
    exact mem_dupBranch dm kd _ d
  · intro dm kd
    exact fsort_sorted _

/-- Witness for C6 at the concrete S4 input. -/
theorem duplicates_to_remove_spec_witness :
    "foo-1-0" ∉ ({"foo-2-0"} : Finset String) :=
  duplicates_to_remove_spec.1 {"foo-1-0", "foo-2-0", "bar-1-0"} {"foo-2-0"} "foo-1-0" (by decide)

/-- C8: One pass of `duplicates_to_remove` is complete: removing the
returned distributions and re-applying the function with the same keep
set returns the empty list (no name group among the remaining
distributions has removable duplicates). -/
theorem duplicates_to_remove_idempotent :
    ∀ dm kd : Finset String,
      duplicates_to_remove (dm \ (duplicates_to_remove dm kd).toFinset) kd = [] := by
  intro dm kd
  have hRfin : (duplicates_to_remove dm kd).toFinset = removalSet dm kd := fsort_toFinset _
  rw [hRfin]
  have hempty : removalSet (dm \ removalSet dm kd) kd = ∅ := by
    apply Finset.eq_empty_of_forall_not_mem
    intro d hd
    rw [mem_removalSet, mem_dupBranch] at hd
    obtain ⟨hdg', hcard', hcond'⟩ := hd
    have hgroup : dupGroup (dm \ removalSet dm kd) (name_dist d)
        = dupGroup dm (name_dist d) \ removalSet dm kd := by
      ext x
      simp only [dupGroup, Finset.mem_filter, Finset.mem_sdiff]
      tauto
    have hgB : dupGroup dm (name_dist d) \ removalSet dm kd
        = dupGroup dm (name_dist d) \ dupBranch dm kd (name_dist d) := by
      ext x
      simp only [Finset.mem_sdiff]
      constructor
      · rintro ⟨hxg, hxR⟩
        refine ⟨hxg, fun hxB => hxR ?_⟩
        rw [mem_removalSet]
        rwa [(Finset.mem_filter.mp hxg).2]
      · rintro ⟨hxg, hxB⟩
        refine ⟨hxg, fun hxR => hxB ?_⟩
        rw [mem_removalSet] at hxR
        rwa [(Finset.mem_filter.mp hxg).2] at hxR
    rw [hgroup, hgB] at hdg' hcard' hcond'
    by_cases hA : 1 < (dupGroup dm (name_dist d)).card
    · by_cases hB : (dupGroup dm (name_dist d) ∩ kd).Nonempty
      · -- the branch removed the non-keep members; the remainder lies inside kd
        have hBdef : dupBranch dm kd (name_dist d) = dupGroup dm (name_dist d) \ kd := by
          unfold dupBranch
          rw [if_neg (by omega), if_pos hB]
        rw [hBdef, Finset.sdiff_sdiff_self_left] at hdg' hcard' hcond'
        have hdk : d ∈ kd := (Finset.mem_inter.mp hdg').2
        have hnon : ((dupGroup dm (name_dist d) ∩ kd) ∩ kd).Nonempty := ⟨d, by
          rw [Finset.mem_inter]
          exact ⟨hdg', hdk⟩⟩
        rw [if_pos hnon] at hcond'
        exact hcond' hdk
      · -- the branch removed all but the maximum; one element remains
        have hne : (dupGroup dm (name_dist d)).Nonempty := Finset.card_pos.mp (by omega)
        obtain ⟨y, hy⟩ := hne
        have hfne : fsort (dupGroup dm (name_dist d)) ≠ [] :=
          List.ne_nil_of_mem ((mem_fsort _ y).mpr hy)
        have hmax : maxStr (dupGroup dm (name_dist d))
            = some ((fsort (dupGroup dm (name_dist d))).getLast hfne) := by
          unfold maxStr
          exact List.getLast?_eq_getLast _ hfne
        have hsub : dupGroup dm (name_dist d) \ dupBranch dm kd (name_dist d)
            ⊆ {(fsort (dupGroup dm (name_dist d))).getLast hfne} := by
          intro x hx
          rw [Finset.mem_sdiff] at hx
          have hxB := hx.2
          rw [mem_dupBranch] at hxB
          push_neg at hxB
          have hmx := hxB hx.1 hA
          rw [if_neg hB] at hmx
          push_neg at hmx
          rw [hmax] at hmx
          rw [Finset.mem_singleton]
          exact (Option.some.inj hmx).symm
        have hcard2 : (dupGroup dm (name_dist d) \ dupBranch dm kd (name_dist d)).card ≤ 1 := by
          calc (dupGroup dm (name_dist d) \ dupBranch dm kd (name_dist d)).card
              ≤ ({(fsort (dupGroup dm (name_dist d))).getLast hfne} : Finset String).card :=
                Finset.card_le_card hsub
            _ = 1 := Finset.card_singleton _
        omega
    · -- small group: nothing was removed and the group still has at most one member
      have hBempty : dupBranch dm kd (name_dist d) = ∅ := by
        apply Finset.eq_empty_of_forall_not_mem
        intro x hx
        exact hA ((mem_dupBranch dm kd _ x).mp hx).2.1
      rw [hBempty, Finset.sdiff_empty] at hcard'
      exact hA hcard'
  unfold duplicates_to_remove
  rw [hempty]
  rfl


/-! ## `run_script` (install.py lines 430-459)

The script runner is modelled over oracles for the pieces of ambient
state it consults: `isfile` (the filesystem), `comspec` (the `COMSPEC`
environment variable, Windows only), and `exitCode` (the exit status of
invoking an argument vector).  `on_win` and the `'bsd' in sys.platform`
test are parameters.  The result is `none` when the source raises: with
the script present, `str(dist).rsplit('-', 2)` is unpacked into exactly
three variables, which raises `ValueError` when `dist` has fewer than two
dashes.  On Windows with `COMSPEC` unset the source returns `False`
before looking at the exit status. -/

def script_path (onWin : Bool) (pre dist action : String) : String :=
  pre ++ "/" ++ (if onWin then "Scripts" else "bin") ++ "/."
    ++ name_dist dist ++ "-" ++ action ++ (if onWin then ".bat" else ".sh")

def script_args (onWin bsd : Bool) (comspec : Option String) (path : String) :
    Option (List String) :=
  if onWin then comspec.map (fun cs => [cs, "/c", path])
  else some [(if bsd then "/bin/sh" else "/bin/bash"), path]

def dashCount (s : String) : Nat := (s.data.filter (fun c => c == '-')).length

def run_script (onWin bsd : Bool) (comspec : Option String) (isfile : String → Bool)
    (exitCode : List String → Nat) (pre dist action : String) : Option Bool :=
  let path := script_path onWin pre dist action
  if isfile path then
    match script_args onWin bsd comspec path with
    | none => some false
    | some args =>
      if 2 ≤ dashCount dist then some (exitCode args == 0)
      else none
  else some true

/-- C7 counterexample: The claim says that with the script present
`run_script` returns true iff the invoked script exits zero.  On Windows
with `COMSPEC` unset, the script is present and every invocation would
exit 0 (the exit oracle is constantly 0), yet `run_script` returns false
without invoking anything. -/
theorem run_script_comspec_cex :
    (fun _ : String => true) (script_path true "/p" "foo-1-0" "post-link") = true ∧
    run_script true false none (fun _ : String => true) (fun _ : List String => 0)
      "/p" "foo-1-0" "post-link" = some false := by
  decide

/-- C7 amended: `run_script` returns true when the script file is
absent; when the script is present, an argument vector can be formed (on
Windows this needs `COMSPEC`; on POSIX always) and `dist` has at least
two `-`-separated fields, it returns true iff the invoked script exits
with status zero. -/
theorem run_script_spec :
    ∀ (onWin bsd : Bool) (comspec : Option String) (isfile : String → Bool)
      (exitCode : List String → Nat) (pre dist action : String),
      (isfile (script_path onWin pre dist action) = false →
        run_script onWin bsd comspec isfile exitCode pre dist action = some true) ∧
      (∀ args, isfile (script_path onWin pre dist action) = true →
        script_args onWin bsd comspec (script_path onWin pre dist action) = some args →
        2 ≤ dashCount dist →
        run_script onWin bsd comspec isfile exitCode pre dist action
          = some (exitCode args == 0)) := by
  intro onWin bsd comspec isfile exitCode pre dist action
  constructor
  · intro h
    simp [run_script, h]
  · intro args hf hargs hd
    simp [run_script, hf, hargs, hd]

/-- Witness for amended C7: a present POSIX script exiting 0 yields
`some true`. -/
theorem run_script_spec_witness :
    run_script false false none (fun _ : String => true) (fun _ : List String => 0)
      "/p" "foo-1-0" "post-link" = some true := by
  have h := (run_script_spec false false none (fun _ : String => true)
    (fun _ : List String => 0) "/p" "foo-1-0" "post-link").2
    ["/bin/bash", script_path false "/p" "foo-1-0" "post-link"] rfl (by decide) (by decide)
  simpa using h


/-! ## Package cache index (install.py lines 461-527 and 612-623)

The process-wide state is the pair of mappings `package_cache_`
(distribution key → record) and `fname_table` (archive path → channel
prefix string), modelled as association lists with unique keys.  The
filesystem is an oracle pair `isfile`/`isdir`.  `url_channel` lives in
`conda/config.py` (not part of this file's source) and only its result
string matters here, so it is passed as a function parameter.
`remove_binstar_tokens` is the identity in the module's standalone
fallback (lines 82-86).  Note that `fname_table` keys are of type
`Option String`: when the archive file is absent, the source assigns
`fname_table[None] = prefix` and appends `None` to the record's `files`
list. -/

structure CacheRec where
  files : List (Option String)
  dirs : List String
  urls : List String
deriving DecidableEq

structure CacheState where
  package_cache_ : List (String × CacheRec)
  fname_table : List (Option String × String)
deriving DecidableEq

def alookup {α : Type} (k : String) : List (String × α) → Option α
  | [] => none
  | (k', v) :: t => if k' = k then some v else alookup k t

def ainsert {α : Type} (k : String) (v : α) (t : List (String × α)) : List (String × α) :=
  (k, v) :: t.filter (fun p => decide (p.1 ≠ k))

def aerase {α : Type} (k : String) (t : List (String × α)) : List (String × α) :=
  t.filter (fun p => decide (p.1 ≠ k))

def ftMem (k : Option String) (t : List (Option String × String)) : Bool :=
  t.any (fun p => decide (p.1 = k))

def ftInsert (k : Option String) (v : String) (t : List (Option String × String)) :
    List (Option String × String) :=
  (k, v) :: t.filter (fun p => decide (p.1 ≠ k))

def ftErase (k : Option String) (t : List (Option String × String)) :
    List (Option String × String) :=
  t.filter (fun p => decide (p.1 ≠ k))

/-- Python `url.rsplit('/', 1)[-1]`. -/
def afterLastSlash (s : String) : String :=
  ⟨(s.data.reverse.takeWhile (fun c => c != '/')).reverse⟩

def strTake (s : String) (n : Nat) : String := ⟨s.data.take n⟩

/-- The record-update block of `add_cached_package` (lines 495-503):
append the url, the archive path (possibly `None`) and the extracted
directory when not already present. -/
def updateRecDir (xdir : Option String) (r2 : CacheRec) : CacheRec :=
  match xdir with
  | some xd => if xd ∈ r2.dirs then r2 else { r2 with dirs := r2.dirs ++ [xd] }
  | none => r2

def updateRec (url : String) (xpkg : Option String) (xdir : Option String)
    (r0 : CacheRec) : CacheRec :=
  let r1 := if url ∈ r0.urls then r0 else { r0 with urls := r0.urls ++ [url] }
  let r2 := if xpkg ∈ r1.files then r1 else { r1 with files := r1.files ++ [xpkg] }
  updateRecDir xdir r2

def add_cached_package (isfileFS isdirFS : String → Bool) (url_channel : String → String)
    (pdir url : String) (overwrite urlstxt : Bool) (st : CacheState) : CacheState :=
  -- package_cache() bootstrap: the index is taken as already initialized (it is `st`)
  let dist0 := afterLastSlash url
  let fname := if ".tar.bz2".data.isSuffixOf dist0.data then dist0 else dist0 ++ ".tar.bz2"
  let dist := if ".tar.bz2".data.isSuffixOf dist0.data then strTake dist0 (dist0.length - 8)
    else dist0
  let xpkg0 := pdir ++ "/" ++ fname
  if ¬ overwrite ∧ ftMem (some xpkg0) st.fname_table then st else
  let xpkg : Option String := if isfileFS xpkg0 then some xpkg0 else none
  let xdir0 := pdir ++ "/" ++ dist
  let xdir : Option String :=
    if isdirFS xdir0 ∧ isfileFS (xdir0 ++ "/info/files") ∧ isfileFS (xdir0 ++ "/info/index.json")
    then some xdir0 else none
  if xpkg = none ∧ xdir = none then st else
  -- remove_binstar_tokens(url) is the identity in the standalone fallback
  let schannel := url_channel url
  let chanPre := if schannel = "defaults" then "" else schannel ++ "::"
  let fkey := chanPre ++ dist
  let rec0 := (alookup fkey st.package_cache_).getD ⟨[], [], []⟩
  -- urlstxt: best-effort append of the url to urls.txt on disk; disk writes are not modelled
  { package_cache_ := ainsert fkey (updateRec url xpkg xdir rec0) st.package_cache_,
    fname_table := ftInsert xpkg chanPre st.fname_table }

/-- The `for fname in rec['files']` loop of `rm_fetched` (lines 616-619):
`del fname_table[fname]` raises `KeyError` when the key is absent, and the
subsequent `Locked(dirname(fname))` raises `TypeError` when `fname` is
`None`; both exceptions are modelled as `none`.  The `rm_rf` of each
archive only touches the disk and is not modelled. -/
def rmFetchedFiles : List (Option String) → List (Option String × String) →
    Option (List (Option String × String))
  | [], t => some t
  | f :: fs, t =>
    if ftMem f t then
      match f with
      | none => none
      | some _ => rmFetchedFiles fs (ftErase f t)
    else none

def rm_fetched (dist : String) (st : CacheState) : Option CacheState :=
  match alookup dist st.package_cache_ with
  | none => some st
  | some r =>
    -- rm_rf of the archives and the extracted dirs only touches the disk; not modelled
    match rmFetchedFiles r.files st.fname_table with
    | none => none
    | some ft => some { package_cache_ := aerase dist st.package_cache_, fname_table := ft }


/-- The state produced by `add_cached_package` when it does not return
early: the `fname_table` upsert at key `xpkg` and the record upsert at
key `prefix + dist` (lines 490-503). -/
def addCachedCore (st : CacheState) (fkey chanPre url : String) (xpkg xdir : Option String) :
    CacheState :=
  { package_cache_ := ainsert fkey
      (updateRec url xpkg xdir ((alookup fkey st.package_cache_).getD ⟨[], [], []⟩))
      st.package_cache_,
    fname_table := ftInsert xpkg chanPre st.fname_table }

theorem alookup_filter_ne {α : Type} (k fk : String) (hk : k ≠ fk) :
    ∀ l : List (String × α),
      alookup k (l.filter (fun p => decide (p.1 ≠ fk))) = alookup k l := by
  intro l
  induction l with
  | nil => rfl
  | cons p t ih =>
    obtain ⟨k', v⟩ := p
    by_cases hp : k' ≠ fk
    · rw [List.filter_cons_of_pos (by simpa using hp)]
      by_cases hk' : k' = k
      · simp only [alookup, if_pos hk']
      · simp only [alookup, if_neg hk']
        exact ih
    · push_neg at hp
      subst hp
      rw [List.filter_cons_of_neg (by simp), ih]
      have hne : ¬ (k' = k) := fun h => hk h.symm
      simp only [alookup, if_neg hne]

theorem alookup_aerase_self {α : Type} (k : String) (l : List (String × α)) :
    alookup k (aerase k l) = none := by
  unfold aerase
  induction l with
  | nil => rfl
  | cons p t ih =>
    obtain ⟨k', v⟩ := p
    by_cases hp : k' ≠ k
    · rw [List.filter_cons_of_pos (by simpa using hp)]
      simp only [alookup, if_neg hp]
      exact ih
    · push_neg at hp
      subst hp
      rw [List.filter_cons_of_neg (by simp)]
      exact ih

theorem alookup_ainsert_cases {α : Type} (k fk : String) (v : α) (l : List (String × α)) (r : α)
    (h : alookup k (ainsert fk v l) = some r) :
    (k = fk ∧ r = v) ∨ (k ≠ fk ∧ alookup k l = some r) := by
  unfold ainsert at h
  rw [alookup] at h
  by_cases he : fk = k
  · rw [if_pos he] at h
    exact Or.inl ⟨he.symm, (Option.some.inj h).symm⟩
  · rw [if_neg he] at h
    have hk : k ≠ fk := fun hke => he hke.symm
    right
    refine ⟨hk, ?_⟩
    rwa [alookup_filter_ne k fk hk] at h

theorem updateRec_dirs {url : String} {xpkg xdir : Option String} {r0 : CacheRec} {d : String}
    (h : d ∈ (updateRec url xpkg xdir r0).dirs) : d ∈ r0.dirs ∨ xdir = some d := by
  unfold updateRec at h
  have h1d : (if url ∈ r0.urls then r0 else { r0 with urls := r0.urls ++ [url] }).dirs
      = r0.dirs := by split_ifs <;> rfl
  have h2d : (if xpkg ∈ (if url ∈ r0.urls then r0
        else { r0 with urls := r0.urls ++ [url] }).files
      then (if url ∈ r0.urls then r0 else { r0 with urls := r0.urls ++ [url] })
      else { (if url ∈ r0.urls then r0 else { r0 with urls := r0.urls ++ [url] }) with
        files := (if url ∈ r0.urls then r0
          else { r0 with urls := r0.urls ++ [url] }).files ++ [xpkg] }).dirs = r0.dirs := by
    split_ifs <;> simp [h1d]
  rcases xdir with _ | xd
  · left
    rw [updateRecDir] at h
    rwa [h2d] at h
  · rw [updateRecDir] at h
    by_cases hxd : xd ∈ (if xpkg ∈ (if url ∈ r0.urls then r0
          else { r0 with urls := r0.urls ++ [url] }).files
        then (if url ∈ r0.urls then r0 else { r0 with urls := r0.urls ++ [url] })
        else { (if url ∈ r0.urls then r0 else { r0 with urls := r0.urls ++ [url] }) with
          files := (if url ∈ r0.urls then r0
            else { r0 with urls := r0.urls ++ [url] }).files ++ [xpkg] }).dirs
    · rw [if_pos hxd] at h
      left
      rwa [h2d] at h
    · rw [if_neg hxd] at h
      simp only [h2d] at h
      rcases List.mem_append.mp h with h | h
      · exact Or.inl h
      · exact Or.inr (by rw [List.mem_singleton.mp h])

theorem updateRec_files {url : String} {xpkg xdir : Option String} {r0 : CacheRec}
    {f : Option String} (h : f ∈ (updateRec url xpkg xdir r0).files) :
    f ∈ r0.files ∨ f = xpkg := by
  unfold updateRec at h
  have h1f : (if url ∈ r0.urls then r0 else { r0 with urls := r0.urls ++ [url] }).files
      = r0.files := by split_ifs <;> rfl
  have hdir : ∀ (xo : Option String) (r2 : CacheRec), (updateRecDir xo r2).files = r2.files := by
    intro xo r2
    rcases xo with _ | xd
    · rfl
    · rw [updateRecDir]
      split_ifs <;> rfl
  rw [hdir] at h
  by_cases h2 : xpkg ∈ (if url ∈ r0.urls then r0 else { r0 with urls := r0.urls ++ [url] }).files
  · rw [if_pos h2] at h
    left
    rwa [h1f] at h
  · rw [if_neg h2] at h
    simp only [h1f] at h
    rcases List.mem_append.mp h with h | h
    · exact Or.inl h
    · exact Or.inr (List.mem_singleton.mp h)

theorem add_cached_package_cases (isf isd : String → Bool) (uc : String → String)
    (pdir url : String) (ow ut : Bool) (st : CacheState) :
    add_cached_package isf isd uc pdir url ow ut st = st ∨
    ∃ fkey chanPre xpkg xdir,
      (∀ q, xpkg = some q → isf q = true) ∧
      (∀ q, xdir = some q → isd q = true ∧ isf (q ++ "/info/files") = true ∧
        isf (q ++ "/info/index.json") = true) ∧
      add_cached_package isf isd uc pdir url ow ut st
        = addCachedCore st fkey chanPre url xpkg xdir := by
  simp only [add_cached_package, addCachedCore]
  split_ifs <;>
    first
      | exact Or.inl rfl
      | (refine Or.inr ⟨_, _, _, _, ?_, ?_, rfl⟩ <;>
          first
            | (intro q hq; cases hq; assumption)
            | (intro q hq; exact absurd hq (by simp)))


/-- C5 counterexample: The claim says every entry that
`add_cached_package` places in a record's `files` list refers to a path
that exists on disk at insertion.  When the archive is absent but the
extracted directory is present, the source stores `fname_table[None]` and
appends `None` to `files`: the resulting record is
`{files: [None], dirs: [p/foo-1-0], urls: [url]}`, and the `None` entry
refers to no on-disk path. -/
theorem add_cached_package_none_entry_cex :
    alookup "foo-1-0"
        (add_cached_package
          (fun s => s == "p/foo-1-0/info/files" || s == "p/foo-1-0/info/index.json")
          (fun s => s == "p/foo-1-0") (fun _ => "defaults")
          "p" "http://h/foo-1-0.tar.bz2" false false ⟨[], []⟩).package_cache_
      = some ⟨[none], ["p/foo-1-0"], ["http://h/foo-1-0.tar.bz2"]⟩ := by
  decide

theorem ftMem_ftErase_self (k : Option String) (t : List (Option String × String)) :
    ftMem k (ftErase k t) = false := by
  unfold ftMem ftErase
  rw [List.any_eq_false]
  intro p hp
  have hmem := (List.mem_filter.mp hp).2
  simp only [decide_eq_true_eq] at hmem
  simpa using hmem

theorem ftMem_mono_ftErase {k k0 : Option String} {t : List (Option String × String)}
    (h : ftMem k (ftErase k0 t) = true) : ftMem k t = true := by
  unfold ftMem ftErase at h
  unfold ftMem
  rw [List.any_eq_true] at h ⊢
  obtain ⟨p, hp, hpk⟩ := h
  exact ⟨p, (List.mem_filter.mp hp).1, hpk⟩

theorem rmFetchedFiles_mono {fs : List (Option String)} :
    ∀ {t t' : List (Option String × String)}, rmFetchedFiles fs t = some t' →
      ∀ k, ftMem k t = false → ftMem k t' = false := by
  induction fs with
  | nil =>
    intro t t' h k hk
    cases h
    exact hk
  | cons f fs ih =>
    intro t t' h k hk
    simp only [rmFetchedFiles] at h
    by_cases hf : ftMem f t = true
    · rw [if_pos hf] at h
      cases f with
      | none => cases h
      | some q =>
        apply ih h
        cases hke : ftMem k (ftErase (some q) t) with
        | false => rfl
        | true =>
          rw [ftMem_mono_ftErase hke] at hk
          cases hk
    · rw [if_neg hf] at h
      cases h

theorem rmFetchedFiles_removes {fs : List (Option String)} :
    ∀ {t t' : List (Option String × String)}, rmFetchedFiles fs t = some t' →
      ∀ f ∈ fs, ftMem f t' = false := by
  induction fs with
  | nil =>
    intro t t' _ f hf
    cases hf
  | cons f0 fs ih =>
    intro t t' h f hf
    simp only [rmFetchedFiles] at h
    by_cases hf0 : ftMem f0 t = true
    · rw [if_pos hf0] at h
      cases f0 with
      | none => cases h
      | some q =>
        rcases List.mem_cons.mp hf with rfl | hf'
        · exact rmFetchedFiles_mono h _ (ftMem_ftErase_self _ t)
        · exact ih h f hf'
    · rw [if_neg hf0] at h
      cases h

/-- C5 amended: Every directory entry that `add_cached_package`
places in a record is (unless inherited from the previous state) a
directory on disk whose `info/files` and `info/index.json` are files on
disk, and every new `files` entry is either `None` (the placeholder the
source stores when only the extracted directory exists) or an archive
path that is a file on disk at insertion.  When `rm_fetched(dist)`
returns, no key of `fname_table` is any of that distribution's recorded
archive paths, and the distribution's record has been removed from the
cache index. -/
theorem cache_index_invariants :
    (∀ (isf isd : String → Bool) (uc : String → String) (pdir url : String)
        (ow ut : Bool) (st : CacheState) (k : String) (r : CacheRec),
        alookup k (add_cached_package isf isd uc pdir url ow ut st).package_cache_ = some r →
        (∀ d ∈ r.dirs,
            (∃ r0, alookup k st.package_cache_ = some r0 ∧ d ∈ r0.dirs) ∨
            (isd d = true ∧ isf (d ++ "/info/files") = true ∧
              isf (d ++ "/info/index.json") = true)) ∧
        (∀ f ∈ r.files,
            (∃ r0, alookup k st.package_cache_ = some r0 ∧ f ∈ r0.files) ∨
            f = none ∨ ∃ q, f = some q ∧ isf q = true)) ∧
    (∀ (dist : String) (st st' : CacheState) (r : CacheRec),
        rm_fetched dist st = some st' →
        alookup dist st.package_cache_ = some r →
        (∀ f ∈ r.files, ftMem f st'.fname_table = false) ∧
        alookup dist st'.package_cache_ = none) := by
  constructor
  · intro isf isd uc pdir url ow ut st k r h
    rcases add_cached_package_cases isf isd uc pdir url ow ut st with
      heq | ⟨fkey, cp, xp, xd, hx, hdc, heq⟩
    · rw [heq] at h
      exact ⟨fun d hd => Or.inl ⟨r, h, hd⟩, fun f hf => Or.inl ⟨r, h, hf⟩⟩
    · rw [heq] at h
      unfold addCachedCore at h
      rcases alookup_ainsert_cases k fkey _ _ r h with ⟨hkf, hr⟩ | ⟨hkf, h'⟩
      · subst hkf
        subst hr
        constructor
        · intro d hd
          rcases updateRec_dirs hd with hd0 | hxd
          · rcases halk : alookup k st.package_cache_ with _ | r0
            · rw [halk] at hd0
              cases hd0
            · rw [halk] at hd0
              exact Or.inl ⟨r0, rfl, hd0⟩
          · exact Or.inr (hdc d hxd)
        · intro f hf
          rcases updateRec_files hf with hf0 | hfe
          · rcases halk : alookup k st.package_cache_ with _ | r0
            · rw [halk] at hf0
              cases hf0
            · rw [halk] at hf0
              exact Or.inl ⟨r0, rfl, hf0⟩
          · rcases hxp2 : xp with _ | q
            · exact Or.inr (Or.inl (hfe.trans hxp2))
            · exact Or.inr (Or.inr ⟨q, hfe.trans hxp2, hx q hxp2⟩)
      · exact ⟨fun d hd => Or.inl ⟨r, h', hd⟩, fun f hf => Or.inl ⟨r, h', hf⟩⟩
  · intro dist st st' r h hl
    have hr : rm_fetched dist st
        = match rmFetchedFiles r.files st.fname_table with
          | none => none
          | some ft =>
            some { package_cache_ := aerase dist st.package_cache_, fname_table := ft } := by
      unfold rm_fetched
      rw [hl]
    rw [hr] at h
    rcases hrm : rmFetchedFiles r.files st.fname_table with _ | ft <;> rw [hrm] at h
    · cases h
    · cases h
      exact ⟨fun f hf => rmFetchedFiles_removes hrm f hf, alookup_aerase_self dist _⟩

/-- Witness for amended C5: a one-record cache whose archive is removed
by `rm_fetched`. -/
theorem cache_index_invariants_witness :
    (∀ f ∈ [(some "p/d-1-0.tar.bz2" : Option String)],
        ftMem f (⟨[], []⟩ : CacheState).fname_table = false) ∧
    alookup "d-1-0" (⟨[], []⟩ : CacheState).package_cache_ = none :=
  cache_index_invariants.2 "d-1-0"
    ⟨[("d-1-0", ⟨[some "p/d-1-0.tar.bz2"], [], ["u"]⟩)], [(some "p/d-1-0.tar.bz2", "")]⟩
    ⟨[], []⟩ ⟨[some "p/d-1-0.tar.bz2"], [], ["u"]⟩ (by decide) (by decide)


/-! ## Filesystem model for the link and unlink engines

The filesystem is a pair of finite sets of absolute paths: regular files
and directories.  Paths are `/`-separated strings; `dirnameStr` is
`posixpath.dirname` for the normalized paths the engine builds.  The
in-memory linked-data cache for the fixed prefix under study maps each
channel-qualified distribution key to the `files` list of its metadata
record (the only field the unlink engine consults). -/

structure FileSys where
  files : Finset String
  dirs : Finset String
deriving DecidableEq

structure EnvState where
  fsys : FileSys
  linked_data_ : List (String × List String)
deriving DecidableEq

def joinP (a b : String) : String := a ++ "/" ++ b

def dirnameStr (s : String) : String :=
  if '/' ∈ s.data then
    let head := ((s.data.reverse.dropWhile (fun c => c != '/')).tail).reverse
    if head = [] then "/" else ⟨head⟩
  else ""

/-- The key under which `load_linked_data` stores a record
(install.py lines 697-713): `schannel`-qualified with the `defaults`
channel left implicit. -/
def linkedKey (dist : String) : String :=
  let p := dist2pair dist
  (if p.1 = "defaults" then "" else p.1 ++ "::") ++ p.2

def metaDirPath (pre : String) : String := joinP pre "conda-meta"

def metaJsonRel (dist : String) : String := joinP "conda-meta" (dist2filename dist ".json")

def metaJsonPath (pre dist : String) : String := joinP pre (metaJsonRel dist)

def sidecarRel (dist : String) : String := joinP "conda-meta" (dist2filename dist ".files")

def sidecarPath (pre dist : String) : String := joinP pre (sidecarRel dist)

/-- The ancestor chain created by `os.makedirs`: the directory and every
ancestor (`dirnameStr` strictly shortens each step; the length fuel is
always sufficient). -/
def parentChainF : Nat → String → List String
  | 0, _ => []
  | fuel + 1, d =>
    d :: (if (dirnameStr d).length < d.length then parentChainF fuel (dirnameStr d) else [])

def parentChain (d : String) : List String := parentChainF d.length d

/-- A directory is empty when no file and no other directory lies
directly inside it. -/
def dirEmpty (fs : FileSys) (d : String) : Prop :=
  (∀ f ∈ fs.files, dirnameStr f ≠ d) ∧ (∀ e ∈ fs.dirs, e ≠ d → dirnameStr e ≠ d)

instance (fs : FileSys) (d : String) : Decidable (dirEmpty fs d) := by
  unfold dirEmpty
  infer_instance

/-- Function `rm_empty_dir` (install.py lines 278-286): `os.rmdir`, with the
`OSError` for a missing or non-empty directory ignored. -/
def rm_empty_dir (fs : FileSys) (d : String) : FileSys :=
  if d ∈ fs.dirs ∧ dirEmpty fs d then { fs with dirs := fs.dirs.erase d } else fs

/-- The `while len(path) > len(prefix)` ancestor walk of `unlink`
(install.py lines 936-939).  The inner guard cuts the walk short in the
degenerate case where `dirname` no longer shortens the path (where the
Python loop would not terminate); it never fires for the slash-separated
paths the engine builds. -/
def upDirsF (pre : String) : Nat → String → List String
  | 0, _ => []
  | fuel + 1, path =>
    if pre.length < path.length then
      if (dirnameStr path).length < path.length then
        path :: upDirsF pre fuel (dirnameStr path)
      else [path]
    else []

def up_dirs (pre path : String) : List String := upDirsF pre path.length path

/-- Insertion sort by decreasing string length: the removal order
`sorted(dst_dirs2, key=len, reverse=True)` of install.py line 944 (ties
are broken arbitrarily there, by set iteration order; any length-sorted
order produces the same final state). -/
def lenInsert (x : String) : List String → List String
  | [] => [x]
  | y :: ys => if y.length ≤ x.length then x :: y :: ys else y :: lenInsert x ys

def sortByLenDesc : List String → List String
  | [] => []
  | x :: xs => lenInsert x (sortByLenDesc xs)

/-! ## The link engine (install.py lines 823-901), filesystem effects

Modelled for a fixed target prefix: the per-file loop (ensure the parent
directory, clobber an existing destination file, create the destination
unless a directory sits in its way), the `_cache` early return, the
`.files` sidecar override of the recorded manifest, and `create_meta`.
The lifecycle scripts and the menu collaborator are external
collaborators with no filesystem effect in this model, and the prefix
rewriter (`update_prefix`) rewrites file contents in place, so none of
them changes the file or directory sets.  `sidecar_lines` stands for the
content of the `conda-meta/<tail>.files` sidecar when that file exists. -/

def linkOne (pre : String) (fs : FileSys) (f : String) : FileSys :=
  let dst := joinP pre f
  let dst_dir := dirnameStr dst
  -- if not isdir(dst_dir): os.makedirs(dst_dir)
  let fs1 := if dst_dir ∈ fs.dirs then fs
    else { fs with dirs := fs.dirs ∪ (parentChain dst_dir).toFinset }
  -- if os.path.exists(dst): os.unlink(dst), the failure on a directory logged (lines 850-861)
  let fs2 := if dst ∈ fs1.files then { fs1 with files := fs1.files.erase dst } else fs1
  -- _link(src, dst, lt): creates dst; the OSError when a directory remains at dst is
  -- logged and the file is skipped (lines 866-870)
  if dst ∈ fs2.dirs then fs2 else { fs2 with files := insert dst fs2.files }

def linkFiles (pre : String) (manifest : List String) (fs : FileSys) : FileSys :=
  manifest.foldl (linkOne pre) fs

/-- Function `create_meta` (install.py lines 380-395), filesystem part: create
`conda-meta` when missing and write `<tail>.json`. -/
def createMetaFs (pre dist : String) (fs : FileSys) : FileSys :=
  let fs3 := if metaDirPath pre ∈ fs.dirs then fs
    else { fs with dirs := fs.dirs ∪ (parentChain (metaDirPath pre)).toFinset }
  { fs3 with files := insert (metaJsonPath pre dist) fs3.files }

def link (pre dist : String) (manifest sidecar_lines : List String) (st : EnvState) :
    EnvState :=
  -- run_script(source_dir, dist, 'pre-link', prefix): no filesystem effect in this model
  let fs1 := linkFiles pre manifest st.fsys
  if name_dist dist = "_cache" then { st with fsys := fs1 } else
  -- update_prefix rewrites contents only; mk_menus and post-link: no filesystem effect here
  let scp := sidecarPath pre dist
  -- meta_dict['files']: the sidecar lines when the sidecar exists (which is then
  -- unlinked), else the manifest (lines 890-895)
  let meta_files := if scp ∈ fs1.files then sidecar_lines else manifest
  let fs2 := if scp ∈ fs1.files then { fs1 with files := fs1.files.erase scp } else fs1
  { fsys := createMetaFs pre dist fs2,
    linked_data_ := ainsert (linkedKey dist) meta_files st.linked_data_ }

/-! ## The unlink engine (install.py lines 904-945), filesystem effects -/

def unlinkFs1 (pre : String) (mfiles : List String) (fs : FileSys) : FileSys :=
  mfiles.foldl (fun fs f => { fs with files := fs.files.erase (joinP pre f) }) fs

def unlinkFs2 (pre dist : String) (mfiles : List String) (fs : FileSys) : FileSys :=
  let fs1 := unlinkFs1 pre mfiles fs
  let mp := metaJsonPath pre dist
  if mp ∈ fs1.files then { fs1 with files := fs1.files.erase mp } else fs1

/-- The directory-removal candidates of `unlink` (lines 935-944): every
ancestor, strictly longer than the prefix, of the directory of an
installed file, together with `conda-meta` and the prefix itself, in
descending order of path length. -/
def removeDirsOrder (pre : String) (mfiles : List String) : List String :=
  let dst_dirs1 := (mfiles.map (fun f => dirnameStr (joinP pre f))).dedup
  sortByLenDesc (((dst_dirs1.map (up_dirs pre)).flatten ++ [metaDirPath pre, pre]).dedup)

def unlink (pre dist : String) (st : EnvState) : Option EnvState :=
  -- Locked(prefix) and run_script(prefix, dist, 'pre-unlink'): no filesystem effect here
  match alookup dist st.linked_data_ with
  | none => none
    -- load_meta returned None: `meta['files']` raises TypeError before any file is removed
  | some mfiles =>
    -- os.unlink(join(prefix, f)) for each recorded file; failures (missing file,
    -- directory in the way) are caught and logged (lines 916-930)
    -- delete_linked_data(prefix, dist, delete=True) drops the key and the .json file
    some { fsys := (removeDirsOrder pre mfiles).foldl rm_empty_dir
             (unlinkFs2 pre dist mfiles st.fsys),
           linked_data_ := aerase dist st.linked_data_ }


theorem alookup_ainsert_self {α : Type} (k : String) (v : α) (l : List (String × α)) :
    alookup k (ainsert k v l) = some v := by
  unfold ainsert alookup
  rw [if_pos rfl]

theorem joinP_left_cancel {pre a b : String} (h : joinP pre a = joinP pre b) : a = b := by
  unfold joinP at h
  have hd := congrArg String.data h
  simp only [String.data_append, List.append_assoc] at hd
  exact String.ext (List.append_cancel_left (List.append_cancel_left hd))

theorem dropWhile_length_le (p : Char → Bool) :
    ∀ l : List Char, (l.dropWhile p).length ≤ l.length := by
  intro l
  induction l with
  | nil => exact le_rfl
  | cons c t ih =>
    rw [List.dropWhile_cons]
    split_ifs
    · exact le_trans ih (by simp)
    · exact le_rfl

theorem dirnameStr_length_lt {e d : String} (h : dirnameStr e = d) (hne : e ≠ d) :
    d.length < e.length := by
  have hEL : e.length = e.data.length := rfl
  unfold dirnameStr at h
  by_cases hsl : '/' ∈ e.data
  · rw [if_pos hsl] at h
    have hdw : e.data.reverse.dropWhile (fun c => c != '/') ≠ [] := by
      intro h0
      have hall := List.dropWhile_eq_nil_iff.mp h0
      have hmem : '/' ∈ e.data.reverse := List.mem_reverse.mpr hsl
      have := hall _ hmem
      simp at this
    by_cases hh : ((e.data.reverse.dropWhile (fun c => c != '/')).tail).reverse = []
    · rw [if_pos hh] at h
      subst h
      have h1 : 1 ≤ e.data.length := List.length_pos.mpr (List.ne_nil_of_mem hsl)
      have hSL : ("/" : String).length = 1 := rfl
      rcases Nat.lt_or_ge 1 e.data.length with h2 | h2
      · omega
      · exfalso
        have hlen1 : e.data.length = 1 := le_antisymm h2 h1
        obtain ⟨a, ha⟩ := List.length_eq_one.mp hlen1
        rw [ha] at hsl
        rcases List.mem_singleton.mp hsl with rfl
        refine hne (String.ext ?_)
        rw [ha]
    · rw [if_neg hh] at h
      subst h
      have hDL : (⟨((e.data.reverse.dropWhile (fun c => c != '/')).tail).reverse⟩ : String).length
          = (((e.data.reverse.dropWhile (fun c => c != '/')).tail).reverse).length := rfl
      have hlen : (((e.data.reverse.dropWhile (fun c => c != '/')).tail).reverse).length
          = ((e.data.reverse.dropWhile (fun c => c != '/')).tail).length := List.length_reverse _
      have htail : ((e.data.reverse.dropWhile (fun c => c != '/')).tail).length
          = (e.data.reverse.dropWhile (fun c => c != '/')).length - 1 := List.length_tail _
      have hle := dropWhile_length_le (fun c => c != '/') e.data.reverse
      rw [List.length_reverse] at hle
      have h1 : 1 ≤ (e.data.reverse.dropWhile (fun c => c != '/')).length :=
        List.length_pos.mpr hdw
      omega
  · rw [if_neg hsl] at h
    subst h
    have hnn : e.data ≠ [] := by
      intro h0
      refine hne (String.ext ?_)
      rw [h0]
    have h1 : 1 ≤ e.data.length := List.length_pos.mpr hnn
    have hNL : ("" : String).length = 0 := rfl
    omega

theorem linkOne_files_subset (pre : String) (fs : FileSys) (f : String) :
    (linkOne pre fs f).files ⊆ insert (joinP pre f) fs.files := by
  simp only [linkOne]
  split_ifs <;> intro x hx <;>
    simp only [Finset.mem_insert, Finset.mem_erase] at hx ⊢ <;> tauto

theorem linkFiles_subset (pre : String) :
    ∀ (L : List String) (fs : FileSys),
      (linkFiles pre L fs).files ⊆ fs.files ∪ (L.map (joinP pre)).toFinset := by
  intro L
  induction L with
  | nil =>
    intro fs x hx
    exact Finset.mem_union_left _ hx
  | cons f L ih =>
    intro fs x hx
    have hx2 := ih (linkOne pre fs f) hx
    rcases Finset.mem_union.mp hx2 with h | h
    · have h3 := linkOne_files_subset pre fs f h
      rcases Finset.mem_insert.mp h3 with rfl | h4
      · refine Finset.mem_union_right _ ?_
        rw [List.mem_toFinset]
        simp
      · exact Finset.mem_union_left _ h4
    · refine Finset.mem_union_right _ ?_
      rw [List.mem_toFinset] at h ⊢
      simp only [List.map_cons, List.mem_cons]
      exact Or.inr h

theorem unlinkFs1_subset (pre : String) :
    ∀ (L : List String) (fs : FileSys), (unlinkFs1 pre L fs).files ⊆ fs.files := by
  intro L
  induction L with
  | nil => intro fs x hx; exact hx
  | cons f L ih =>
    intro fs x hx
    have := ih { fs with files := fs.files.erase (joinP pre f) } hx
    exact Finset.mem_of_mem_erase this

theorem unlinkFs1_removes (pre : String) :
    ∀ (L : List String) (fs : FileSys), ∀ f ∈ L, joinP pre f ∉ (unlinkFs1 pre L fs).files := by
  intro L
  induction L with
  | nil =>
    intro fs f hf
    cases hf
  | cons f0 L ih =>
    intro fs f hf
    rcases List.mem_cons.mp hf with rfl | hf'
    · intro hmem
      have := unlinkFs1_subset pre L { fs with files := fs.files.erase (joinP pre f) } hmem
      exact (Finset.not_mem_erase _ _) this
    · exact ih _ f hf'

theorem unlinkFs2_subset (pre dist : String) (L : List String) (fs : FileSys) :
    (unlinkFs2 pre dist L fs).files ⊆ (unlinkFs1 pre L fs).files := by
  simp only [unlinkFs2]
  split_ifs
  · exact Finset.erase_subset _ _
  · exact fun x hx => hx

theorem unlinkFs2_no_json (pre dist : String) (L : List String) (fs : FileSys) :
    metaJsonPath pre dist ∉ (unlinkFs2 pre dist L fs).files := by
  simp only [unlinkFs2]
  split_ifs with h
  · exact Finset.not_mem_erase _ _
  · exact h

theorem rm_empty_dir_files (fs : FileSys) (d : String) :
    (rm_empty_dir fs d).files = fs.files := by
  rw [rm_empty_dir]
  split_ifs <;> rfl

theorem foldl_rm_files :
    ∀ (L : List String) (fs : FileSys), (L.foldl rm_empty_dir fs).files = fs.files := by
  intro L
  induction L with
  | nil => intro fs; rfl
  | cons d L ih =>
    intro fs
    rw [List.foldl_cons, ih, rm_empty_dir_files]

theorem rm_empty_dir_dirs_subset (fs : FileSys) (d : String) :
    (rm_empty_dir fs d).dirs ⊆ fs.dirs := by
  rw [rm_empty_dir]
  split_ifs
  · exact Finset.erase_subset _ _
  · exact fun x hx => hx

theorem foldl_rm_dirs_subset :
    ∀ (L : List String) (fs : FileSys), (L.foldl rm_empty_dir fs).dirs ⊆ fs.dirs := by
  intro L
  induction L with
  | nil => intro fs x hx; exact hx
  | cons d L ih =>
    intro fs x hx
    exact rm_empty_dir_dirs_subset fs d (ih (rm_empty_dir fs d) hx)

theorem foldl_rm_dirs_preserve :
    ∀ (L : List String) (fs : FileSys) (e : String), e ∈ fs.dirs → e ∉ L →
      e ∈ (L.foldl rm_empty_dir fs).dirs := by
  intro L
  induction L with
  | nil =>
    intro fs e he _
    exact he
  | cons d L ih =>
    intro fs e he hnotin
    rw [List.foldl_cons]
    refine ih _ e ?_ (fun hc => hnotin (List.mem_cons_of_mem d hc))
    rw [rm_empty_dir]
    split_ifs with hc
    · exact Finset.mem_erase.mpr ⟨fun he2 => hnotin (he2 ▸ List.mem_cons_self d L), he⟩
    · exact he

theorem mem_lenInsert {x z : String} : ∀ l, z ∈ lenInsert x l ↔ z = x ∨ z ∈ l := by
  intro l
  induction l with
  | nil => simp [lenInsert]
  | cons y ys ih =>
    rw [lenInsert]
    split_ifs
    · simp
    · simp only [List.mem_cons, ih]
      tauto

theorem lenInsert_pairwise (x : String) :
    ∀ l, l.Pairwise (fun a b => b.length ≤ a.length) →
      (lenInsert x l).Pairwise (fun a b => b.length ≤ a.length) := by
  intro l
  induction l with
  | nil =>
    intro _
    simp [lenInsert]
  | cons y ys ih =>
    intro hp
    rw [List.pairwise_cons] at hp
    rw [lenInsert]
    split_ifs with hxy
    · rw [List.pairwise_cons]
      constructor
      · intro z hz
        rcases List.mem_cons.mp hz with rfl | hz'
        · exact hxy
        · exact le_trans (hp.1 z hz') hxy
      · rw [List.pairwise_cons]
        exact hp
    · rw [List.pairwise_cons]
      constructor
      · intro z hz
        rcases (mem_lenInsert ys).mp hz with rfl | hz'
        · omega
        · exact hp.1 z hz'
      · exact ih hp.2

theorem sortByLenDesc_pairwise :
    ∀ l, (sortByLenDesc l).Pairwise (fun a b => b.length ≤ a.length) := by
  intro l
  induction l with
  | nil => exact List.Pairwise.nil
  | cons x xs ih => exact lenInsert_pairwise x _ ih

theorem removeDirsOrder_pairwise (pre : String) (mfiles : List String) :
    (removeDirsOrder pre mfiles).Pairwise (fun a b => b.length ≤ a.length) := by
  unfold removeDirsOrder
  exact sortByLenDesc_pairwise _

theorem foldl_rm_empty_no_empty_left :
    ∀ (L : List String), L.Pairwise (fun a b => b.length ≤ a.length) →
      ∀ (fs : FileSys), ∀ d ∈ L, d ∈ (L.foldl rm_empty_dir fs).dirs →
        ¬ dirEmpty (L.foldl rm_empty_dir fs) d := by
  intro L
  induction L with
  | nil =>
    intro _ fs d hd
    cases hd
  | cons d0 rest ih =>
    intro hpw fs d hdL hdmem
    rw [List.pairwise_cons] at hpw
    simp only [List.foldl_cons] at hdmem ⊢
    rcases List.mem_cons.mp hdL with rfl | hdrest
    · have hd' : d ∈ (rm_empty_dir fs d).dirs := foldl_rm_dirs_subset rest _ hdmem
      have hcond : ¬ (d ∈ fs.dirs ∧ dirEmpty fs d) := by
        intro hc
        rw [rm_empty_dir, if_pos hc] at hd'
        exact (Finset.not_mem_erase d fs.dirs) hd'
      have hfs' : rm_empty_dir fs d = fs := by
        rw [rm_empty_dir, if_neg hcond]
      rw [hfs'] at hdmem ⊢
      have hdfs : d ∈ fs.dirs := foldl_rm_dirs_subset rest fs hdmem
      have hnotempty : ¬ dirEmpty fs d := fun he => hcond ⟨hdfs, he⟩
      rw [dirEmpty, not_and_or] at hnotempty
      intro hempty
      rcases hnotempty with h | h
      · push_neg at h
        obtain ⟨f, hf, hfd⟩ := h
        have hfR : f ∈ (rest.foldl rm_empty_dir fs).files := by
          rw [foldl_rm_files]
          exact hf
        exact hempty.1 f hfR hfd
      · push_neg at h
        obtain ⟨e, he, hed, hedn⟩ := h
        have hlen := dirnameStr_length_lt hedn hed
        have henotin : e ∉ rest := by
          intro hc
          have := hpw.1 e hc
          omega
        have heR : e ∈ (rest.foldl rm_empty_dir fs).dirs :=
          foldl_rm_dirs_preserve rest fs e he henotin
        exact hempty.2 e heR hed hedn
    · exact ih hpw.2 (rm_empty_dir fs d0) d hdrest hdmem


/-- C9: `unlink(prefix, dist)` has the implicit precondition that
`dist` is linked in the prefix: when `load_meta` yields no record, the
`meta['files']` access raises before any installed file is removed from
the prefix; when the record is present, that failing branch is
unreachable and `unlink` completes. -/
theorem unlink_requires_linked :
    ∀ (pre dist : String) (st : EnvState),
      (alookup dist st.linked_data_ = none → unlink pre dist st = none) ∧
      (∀ mfiles, alookup dist st.linked_data_ = some mfiles →
        ∃ st', unlink pre dist st = some st') := by
  intro pre dist st
  constructor
  · intro h
    unfold unlink
    rw [h]
  · intro mfiles h
    have heq : unlink pre dist st = some {
        fsys := (removeDirsOrder pre mfiles).foldl rm_empty_dir
          (unlinkFs2 pre dist mfiles st.fsys),
        linked_data_ := aerase dist st.linked_data_ } := by
      unfold unlink
      rw [h]
    exact ⟨_, heq⟩

/-- Witness for C9: both branches at concrete states. -/
theorem unlink_requires_linked_witness :
    unlink "/p" "foo-1-0" ⟨⟨∅, ∅⟩, []⟩ = none ∧
    ∃ st', unlink "/p" "foo-1-0" ⟨⟨∅, ∅⟩, [("foo-1-0", [])]⟩ = some st' :=
  ⟨(unlink_requires_linked "/p" "foo-1-0" ⟨⟨∅, ∅⟩, []⟩).1 (by decide),
   (unlink_requires_linked "/p" "foo-1-0" ⟨⟨∅, ∅⟩, [("foo-1-0", [])]⟩).2 [] (by decide)⟩

/-- C1 counterexample: The claim quantifies over every extracted
distribution, but for a distribution whose package name is `_cache`
(e.g. `_cache-1-0`) `link` installs the files and returns without writing
any metadata (install.py lines 872-873), so the subsequent `unlink`
crashes at the metadata access and removes nothing: the installed file
`/p/a` is still on disk and no `conda-meta` bookkeeping ever existed. -/
theorem link_unlink_cache_cex :
    (joinP "/p" "a") ∈ (link "/p" "_cache-1-0" ["a"] [] ⟨⟨∅, ∅⟩, []⟩).fsys.files ∧
    unlink "/p" "_cache-1-0" (link "/p" "_cache-1-0" ["a"] [] ⟨⟨∅, ∅⟩, []⟩) = none := by
  decide

/-- C1 amended: For every prefix and extracted distribution whose
package name is not `_cache`, whose key is in canonical channel-qualified
form (`linkedKey dist = dist`, i.e. no spelled-out `defaults::`), and
with no `conda-meta/<tail>.files` sidecar present or installed,
`link` followed by `unlink` with no intervening external filesystem
changes removes every file that `link` installed, leaves no
`conda-meta/<tail>.json` on disk, removes the distribution's key from the
linked data, and leaves no empty directory among the removal candidates
(every ancestor of an installed file up to the prefix, `conda-meta`, and
the prefix itself, processed in descending order of path length, skipping
non-empty ones). -/
theorem link_unlink_roundtrip :
    ∀ (pre dist : String) (manifest sidecar_lines : List String) (st0 : EnvState),
      name_dist dist ≠ "_cache" →
      linkedKey dist = dist →
      sidecarPath pre dist ∉ st0.fsys.files →
      sidecarRel dist ∉ manifest →
      ∃ st2, unlink pre dist (link pre dist manifest sidecar_lines st0) = some st2 ∧
        (∀ f ∈ manifest, joinP pre f ∉ st2.fsys.files) ∧
        metaJsonPath pre dist ∉ st2.fsys.files ∧
        alookup dist st2.linked_data_ = none ∧
        ∀ d ∈ removeDirsOrder pre manifest,
          d ∈ st2.fsys.dirs → ¬ dirEmpty st2.fsys d := by
  intro pre dist manifest sidecar st0 hname hkey hsc1 hsc2
  have hscp : sidecarPath pre dist ∉ (linkFiles pre manifest st0.fsys).files := by
    intro hmem
    rcases Finset.mem_union.mp (linkFiles_subset pre manifest st0.fsys hmem) with h | h
    · exact hsc1 h
    · rw [List.mem_toFinset] at h
      obtain ⟨f, hf, hfe⟩ := List.mem_map.mp h
      have hfs : f = sidecarRel dist := joinP_left_cancel hfe
      exact hsc2 (hfs ▸ hf)
  have hlink : link pre dist manifest sidecar st0 = {
      fsys := createMetaFs pre dist (linkFiles pre manifest st0.fsys),
      linked_data_ := ainsert (linkedKey dist) manifest st0.linked_data_ } := by
    simp only [link]
    rw [if_neg hname]
    simp only [if_neg hscp]
  have hlook : alookup dist (link pre dist manifest sidecar st0).linked_data_
      = some manifest := by
    rw [hlink]
    show alookup dist (ainsert (linkedKey dist) manifest st0.linked_data_) = some manifest
    rw [hkey]
    exact alookup_ainsert_self dist manifest st0.linked_data_
  have hunlink : unlink pre dist (link pre dist manifest sidecar st0) = some {
      fsys := (removeDirsOrder pre manifest).foldl rm_empty_dir
        (unlinkFs2 pre dist manifest (link pre dist manifest sidecar st0).fsys),
      linked_data_ := aerase dist (link pre dist manifest sidecar st0).linked_data_ } := by
    unfold unlink
    rw [hlook]
  refine ⟨_, hunlink, ?_, ?_, ?_, ?_⟩
  · intro f hf
    show joinP pre f ∉ ((removeDirsOrder pre manifest).foldl rm_empty_dir
      (unlinkFs2 pre dist manifest (link pre dist manifest sidecar st0).fsys)).files
    rw [foldl_rm_files]
    intro hmem
    exact unlinkFs1_removes pre manifest _ f hf
      (unlinkFs2_subset pre dist manifest _ hmem)
  · show metaJsonPath pre dist ∉ ((removeDirsOrder pre manifest).foldl rm_empty_dir
      (unlinkFs2 pre dist manifest (link pre dist manifest sidecar st0).fsys)).files
    rw [foldl_rm_files]
    exact unlinkFs2_no_json pre dist manifest _
  · show alookup dist (aerase dist (link pre dist manifest sidecar st0).linked_data_) = none
    exact alookup_aerase_self dist _
  · intro d hd hdd
    exact foldl_rm_empty_no_empty_left _ (removeDirsOrder_pairwise pre manifest) _ d hd hdd

/-- Witness for amended C1 at a concrete single-file package. -/
theorem link_unlink_roundtrip_witness :
    ∃ st2, unlink "/p" "foo-1-0" (link "/p" "foo-1-0" ["bin/py"] [] ⟨⟨∅, ∅⟩, []⟩) = some st2 ∧
      (∀ f ∈ ["bin/py"], joinP "/p" f ∉ st2.fsys.files) ∧
      metaJsonPath "/p" "foo-1-0" ∉ st2.fsys.files ∧
      alookup "foo-1-0" st2.linked_data_ = none ∧
      ∀ d ∈ removeDirsOrder "/p" ["bin/py"], d ∈ st2.fsys.dirs → ¬ dirEmpty st2.fsys d :=
  link_unlink_roundtrip "/p" "foo-1-0" ["bin/py"] [] ⟨⟨∅, ∅⟩, []⟩ (by decide) (by decide)
    (by decide) (by decide)

end CondaInstall
